import Mathlib

/-!
# Verification of the stegosaurus compression pipeline

Shallow embedding of the Rust sources (`src/compression/{bitstream,arith,
bwt,bzrle,mtf}.rs` and `src/main.rs`) of the `stegosaurus` compressor, and
proofs settling the frozen claims about its specification.

Machine integers are modelled as `Nat` with explicit wrap-around (`% 2^w`).
Integer overflow follows the release-profile semantics the crate ships with:
addition/subtraction/multiplication wrap, and a shift by an amount `>= width`
is masked (`amount % width`), exactly as `overflowing_shl`/`overflowing_shr`.
`checked_shl`/`checked_shr` calls in the source are modelled by their checked
semantics. Operations that can panic (failed asserts, division by zero,
out-of-bounds indexing reachable on some input) are modelled with `Option`,
`none` standing for the panic; loops whose termination is not structural take
an explicit fuel argument, `none` standing for non-termination within fuel.
-/

set_option maxRecDepth 8192

/-- Wrap a value to `w` bits (`x as uW` / wrapping arithmetic result). -/
def wrap (w x : Nat) : Nat := x % 2 ^ w

/-- Wrapping subtraction on `w`-bit unsigned integers (release profile). -/
def wsub (w x y : Nat) : Nat := (x % 2 ^ w + 2 ^ w - y % 2 ^ w) % 2 ^ w

/-- Rust `x >> n` on `u8` in release profile: the shift amount is masked. -/
def mshr8 (x n : Nat) : Nat := (x >>> (n % 8)) % 256

/-- Rust `x << n` on `u8` in release profile: the shift amount is masked. -/
def mshl8 (x n : Nat) : Nat := (x <<< (n % 8)) % 256

/-- Rust `x.checked_shr(n).unwrap_or(0)` on `u8`. -/
def cshr8 (x n : Nat) : Nat := if n < 8 then (x >>> n) % 256 else 0

/-- Rust `x.checked_shl(n).unwrap_or(0)` on `u8`. -/
def cshl8 (x n : Nat) : Nat := if n < 8 then (x <<< n) % 256 else 0

/-- Rust `x << n` on `u64` in release profile: the shift amount is masked. -/
def mshl64 (x n : Nat) : Nat := (x <<< (n % 64)) % 2 ^ 64

/-- Rust `x >> n` on `u64` in release profile: the shift amount is masked. -/
def mshr64 (x n : Nat) : Nat := (x >>> (n % 64)) % 2 ^ 64

/-!
## BitStream (`src/compression/bitstream.rs`)

The structure is polymorphic in the type `σ` of the upstream byte source
(`Box<dyn Read>` in the source); operations that can pull from upstream take
a reader function `rd`.  A reader, given a source state and a buffer size,
returns the bytes produced (at most the buffer size) and the new source
state, or `none` for an I/O error.
-/

/-- A byte source: `read(&mut self, buf)` for buffer length `n` yields the
bytes actually produced and the updated source. -/
def Rd (σ : Type) : Type := σ → Nat → Option (List Nat × σ)

/-- The trivial source backed by a byte list; reading take/drops. -/
def listRd : Rd (List Nat) := fun l n => some (l.take n, l.drop n)

structure BitStream (σ : Type) where
  src : Option σ
  bytes : List Nat
  wbuf_byte : Nat
  wbuf_index : Nat
  rbuf_byte : Nat
  rbuf_index : Nat
deriving Repr, DecidableEq

def BitStream.new {σ : Type} : BitStream σ :=
  { src := none, bytes := [], wbuf_byte := 0, wbuf_index := 0
    rbuf_byte := 0, rbuf_index := 0 }

def BitStream.bits_in_stream {σ : Type} (s : BitStream σ) : Nat :=
  s.wbuf_index + s.rbuf_index + 8 * s.bytes.length

/-- `write_n_bits(n, value)`, `n <= 8`; the `assert!(n <= 8)` is recorded as a
hypothesis of the theorems about it. -/
def BitStream.write_n_bits {σ : Type} (s : BitStream σ) (n value : Nat) :
    BitStream σ :=
  let value := value % 256 &&& mshr8 0xff (8 - n)
  if 8 < s.wbuf_index + n then
    let overflow := s.wbuf_index + n - 8
    let wb := mshl8 s.wbuf_byte (8 - s.wbuf_index)
    let wb := wb ||| cshr8 value overflow
    { s with bytes := s.bytes ++ [wb]
             wbuf_byte := value &&& mshr8 0xff (8 - overflow)
             wbuf_index := overflow }
  else
    { s with wbuf_byte := cshl8 s.wbuf_byte n ||| value
             wbuf_index := s.wbuf_index + n }

def BitStream.write_byte {σ : Type} (s : BitStream σ) (b : Nat) : BitStream σ :=
  s.write_n_bits 8 b

def BitStream.write_bit {σ : Type} (s : BitStream σ) (b : Bool) : BitStream σ :=
  s.write_n_bits 1 (if b then 1 else 0)

/-- The `for i in 0..full_bytes` loop of `write_n_bits_u64`: write the top
byte, shift the 64-bit word left by 8, repeat. Returns the final word too. -/
def BitStream.wu64Go {σ : Type} (s : BitStream σ) (value : Nat) :
    Nat → BitStream σ × Nat
  | 0 => (s, value)
  | k + 1 => (s.write_byte (mshr64 value 56)).wu64Go (mshl64 value 8) k

/-- `write_n_bits_u64(n, value)`, `n <= 64`: the value is left-aligned into a
64-bit word, whole bytes are written first, then the leftover bits. -/
def BitStream.write_n_bits_u64 {σ : Type} (s : BitStream σ) (n value : Nat) :
    BitStream σ :=
  let value := mshl64 value (64 - n)
  let full_bytes := n / 8
  let leftover := n % 8
  let p := s.wu64Go value full_bytes
  if 0 < leftover then
    p.1.write_n_bits leftover (mshr64 p.2 (64 - leftover))
  else p.1

/-- `impl Write for BitStream`: write each byte of the buffer. -/
def BitStream.writeBytes {σ : Type} (s : BitStream σ) : List Nat → BitStream σ
  | [] => s
  | b :: rest => (s.write_byte b).writeBytes rest

/-- `pull_from_src`: read up to 1024 bytes from the upstream source (when one
is attached) and append them byte-aligned. -/
def BitStream.pull_from_src {σ : Type} (rd : Rd σ) (s : BitStream σ) :
    Option (Nat × BitStream σ) :=
  match s.src with
  | some src =>
      match rd src 1024 with
      | none => none
      | some (buf, src') =>
          some (buf.length, { s.writeBytes buf with src := some src' })
  | none => some (0, s)

/-- `read_n_bits(n, &mut out)`, `n <= 8`.  `out0` is the byte the caller's
`out` held before the call; the result is `(count, out, state)`.  The body
unconditionally executes `*out_buf = 0;`, so `out0` is discarded. -/
def BitStream.read_n_bits {σ : Type} (rd : Rd σ) (s : BitStream σ)
    (n out0 : Nat) : Option (Nat × Nat × BitStream σ) :=
  (if s.bits_in_stream < n then (s.pull_from_src rd).map Prod.snd
   else some s).bind fun s =>
  let _ := out0
  if s.rbuf_index = 0 ∧ s.bytes = [] then
    if s.wbuf_index < n then
      some (s.wbuf_index, s.wbuf_byte,
        { s with wbuf_index := 0, wbuf_byte := 0 })
    else
      some (n, mshr8 s.wbuf_byte (s.wbuf_index - n),
        { s with wbuf_index := s.wbuf_index - n
                 wbuf_byte := s.wbuf_byte &&& cshr8 0xff (8 - (s.wbuf_index - n)) })
  else
    if s.rbuf_index < n then
      match s.bytes with
      | next :: rest =>
          let remaining := n - s.rbuf_index
          some (n, mshr8 s.rbuf_byte (8 - n) ||| mshr8 next (8 - remaining),
            { s with bytes := rest
                     rbuf_byte := cshl8 next remaining
                     rbuf_index := 8 - remaining })
      | [] =>
          let to_borrow := n - s.rbuf_index
          if s.wbuf_index < to_borrow then
            let len := s.rbuf_index + s.wbuf_index
            some (len, mshr8 s.rbuf_byte (8 - len) ||| s.wbuf_byte,
              { s with rbuf_byte := 0, rbuf_index := 0
                       wbuf_byte := 0, wbuf_index := 0 })
          else
            some (n,
              mshr8 s.rbuf_byte (8 - n) |||
                mshr8 s.wbuf_byte (s.wbuf_index - to_borrow),
              { s with rbuf_byte := 0, rbuf_index := 0
                       wbuf_byte := s.wbuf_byte &&&
                         cshr8 0xff (8 - (s.wbuf_index - to_borrow))
                       wbuf_index := s.wbuf_index - to_borrow })
    else
      some (n, mshr8 s.rbuf_byte (8 - n),
        { s with rbuf_byte := mshl8 s.rbuf_byte n
                 rbuf_index := s.rbuf_index - n })

/-- `peek_n_bits(n, &mut out)`: non-consuming read (may still pull).  The
subtractions `8 - n - rbuf_index` and `n - wbuf_index - rbuf_index` are `u8`
arithmetic, hence wrap, and the following shift amount is masked. -/
def BitStream.peek_n_bits {σ : Type} (rd : Rd σ) (s : BitStream σ)
    (n out0 : Nat) : Option (Nat × Nat × BitStream σ) :=
  (if s.bits_in_stream < n then (s.pull_from_src rd).map Prod.snd
   else some s).bind fun s =>
  let _ := out0
  let out := mshr8 s.rbuf_byte (8 - n)
  if n ≤ s.rbuf_index then some (n, out, s)
  else
    match s.bytes with
    | b0 :: _ =>
        some (n, out ||| mshr8 b0 (wsub 8 (wsub 8 8 n) s.rbuf_index), s)
    | [] =>
        if n ≤ s.rbuf_index + s.wbuf_index then
          some (n, out |||
            mshr8 s.wbuf_byte (wsub 8 (wsub 8 n s.wbuf_index) s.rbuf_index), s)
        else
          some (s.rbuf_index + s.wbuf_index,
            mshr8 out (n - s.rbuf_index - s.wbuf_index) ||| s.wbuf_byte, s)

def BitStream.peek_byte {σ : Type} (rd : Rd σ) (s : BitStream σ) (out0 : Nat) :
    Option (Nat × Nat × BitStream σ) :=
  s.peek_n_bits rd 8 out0

def BitStream.read_byte {σ : Type} (rd : Rd σ) (s : BitStream σ) (out0 : Nat) :
    Option (Nat × Nat × BitStream σ) :=
  s.read_n_bits rd 8 out0

/-- `read_bit`: one bit, `none` at end of stream. I/O errors are absorbed by
`unwrap_or(0)` in the source, so the call itself never fails. -/
def BitStream.read_bit {σ : Type} (rd : Rd σ) (s : BitStream σ) :
    Option Bool × BitStream σ :=
  match s.read_n_bits rd 1 0 with
  | none => (none, s)
  | some (nread, bit, s') =>
      if nread = 0 then (none, s') else (some (bit = 1), s')

/-- The `for i in 0..full_bytes` loop of `read_n_bits_u64`. -/
def BitStream.ru64Go {σ : Type} (rd : Rd σ) (n : Nat) (s : BitStream σ)
    (dest bits_read buf_byte : Nat) :
    Nat → Option (Nat × Nat × BitStream σ)
  | 0 => some (bits_read, dest, s)
  | k + 1 =>
      match s.read_byte rd buf_byte with
      | none => none
      | some (bits, b, s') =>
          let bits_read := bits_read + bits
          let dest := if bits < 8 then dest >>> (8 - bits) else dest
          let dest := dest ||| mshl64 b (wsub 8 n bits_read)
          s'.ru64Go rd n dest bits_read b k

/-- `read_n_bits_u64(n, &mut dest)`, `n <= 64`. Result `(count, dest, state)`;
`dest` is zeroed at entry. -/
def BitStream.read_n_bits_u64 {σ : Type} (rd : Rd σ) (s : BitStream σ)
    (n : Nat) : Option (Nat × Nat × BitStream σ) :=
  let full_bytes := n / 8
  let leftover := n % 8
  match s.ru64Go rd n 0 0 0 full_bytes with
  | none => none
  | some (bits_read, dest, s) =>
      if 0 < leftover then
        match s.read_n_bits rd leftover 0 with
        | none => none
        | some (bits, b, s') =>
            let bits_read := bits_read + bits
            some (bits_read, mshr64 dest (wsub 8 n bits_read) ||| b, s')
      else some (bits_read, dest, s)

/-- `impl Read for BitStream`: drain up to `bufLen` bytes; a trailing partial
byte is returned lsb-aligned and counts as one byte. -/
def BitStream.readBytes {σ : Type} (rd : Rd σ) (s : BitStream σ) :
    Nat → Option (List Nat × BitStream σ)
  | 0 => some ([], s)
  | k + 1 =>
      match s.read_byte rd 0 with
      | none => none
      | some (nread, b, s') =>
          if nread = 0 then some ([], s')
          else if nread < 8 then some ([b], s')
          else
            match s'.readBytes rd k with
            | none => none
            | some (bs, s'') => some (b :: bs, s'')

def BitStream.clear {σ : Type} (s : BitStream σ) : BitStream σ :=
  { s with bytes := [], wbuf_byte := 0, wbuf_index := 0
           rbuf_byte := 0, rbuf_index := 0 }

/-!
## Arithmetic coder (`src/compression/arith.rs`): constants and model

`cum_freqs` entries are `u32`; all values reachable through the operations
below stay far below `2^32` (the total is bounded by `MAX_FREQ + 2` and the
table length by `2^16 + 2`), so they are represented as plain `Nat`.
-/

/-- `ONE = 0xffffffffffff`. -/
def ONE : Nat := 0xffffffffffff

/-- `CODE_BITS = ONE.count_ones()`. -/
def CODE_BITS : Nat := 48

/-- `MAX_FREQ = u64::MAX / ONE` (integer division). -/
def MAX_FREQ : Nat := (2 ^ 64 - 1) / ONE

def ONE_HALF : Nat := (ONE >>> 1) + 1

def ONE_FOURTH : Nat := ONE_HALF >>> 1

def THREE_FOURTHS : Nat := ONE_FOURTH * 3

/-- `EOF_SYMBOL` of the byte-alphabet instantiation (unused by the generic
coder, which derives its EOF as `max_symbol + 1`). -/
def EOF_SYMBOL : Nat := 256

structure ProbabilityInterval where
  lower : Nat
  upper : Nat
  denom : Nat
deriving Repr, DecidableEq

structure AdaptiveModel where
  cum_freqs : List Nat
  max_input_symbol : Nat
  max_freq : Nat
deriving Repr, DecidableEq

/-- `clear`: `for i in 0..len { cum_freqs[i] = i }`. -/
def AdaptiveModel.clear (m : AdaptiveModel) : AdaptiveModel :=
  { m with cum_freqs := List.range m.cum_freqs.length }

/-- `AdaptiveModel::new(max_input_symbol, max_freq)`: a zeroed table of
length `max_input_symbol + 3`, then `clear`. -/
def AdaptiveModel.new (max_input_symbol max_freq : Nat) : AdaptiveModel :=
  AdaptiveModel.clear
    { cum_freqs := List.replicate (max_input_symbol + 3) 0
      max_input_symbol := max_input_symbol
      max_freq := max_freq }

/-- `count`: `*cum_freqs.last().unwrap()` (the table is never empty). -/
def AdaptiveModel.count (m : AdaptiveModel) : Nat :=
  m.cum_freqs.getLast?.getD 0

/-- The `for i in (symbol + 1)..len` loop of `update_freq`: entry at
absolute index `k + position` gains 1 when that index is `≥ symbol + 1`. -/
def bumpFrom (symbol k : Nat) : List Nat → List Nat
  | [] => []
  | x :: rest =>
      (if symbol + 1 ≤ k then x + 1 else x) :: bumpFrom symbol (k + 1) rest

/-- `update_freq(symbol)`: on saturation clear first, then increment every
entry of index `> symbol`. -/
def AdaptiveModel.update_freq (m : AdaptiveModel) (symbol : Nat) :
    AdaptiveModel :=
  let m := if m.max_freq ≤ m.count then m.clear else m
  { m with cum_freqs := bumpFrom symbol 0 m.cum_freqs }

/-- `get_probability(symbol)`: the triple `(cum[s], cum[s+1], count)`, then
the model updates itself. -/
def AdaptiveModel.get_probability (m : AdaptiveModel) (symbol : Nat) :
    ProbabilityInterval × AdaptiveModel :=
  (⟨m.cum_freqs.getD symbol 0, m.cum_freqs.getD (symbol + 1) 0, m.count⟩,
   m.update_freq symbol)

/-- The scan of `get_symbol`: the first `i < len - 1` with
`scaled_value < cum_freqs[i+1]`. -/
def AdaptiveModel.find_symbol (m : AdaptiveModel) (scaled_value : Nat) :
    Option Nat :=
  (List.range (m.cum_freqs.length - 1)).find? fun i =>
    scaled_value < m.cum_freqs.getD (i + 1) 0

/-- `get_symbol(scaled_value, &mut symbol)`: `none` models the `None` return
(no bucket contains the scaled value). -/
def AdaptiveModel.get_symbol (m : AdaptiveModel) (scaled_value : Nat) :
    Option (Nat × ProbabilityInterval × AdaptiveModel) :=
  (m.find_symbol scaled_value).map fun i => (i, m.get_probability i)

/-- The construction-time assertion of `AriEncoder::new_adaptive` and
`AriDecoder::new_adaptive`: `(max_symbol as usize) < (1 << bits_per_symbol)
as usize`, where `1` is typed `i32`, the shift is masked in release profile,
and the (possibly negative) result is sign-extended to `usize`. -/
def ariNewGuard (bits_per_symbol max_symbol : Nat) : Prop :=
  max_symbol <
    (if bits_per_symbol % 32 = 31 then 2 ^ 64 - 2 ^ 31
     else 2 ^ (bits_per_symbol % 32))

instance (b M : Nat) : Decidable (ariNewGuard b M) := by
  unfold ariNewGuard; infer_instance

/-- Dummy reader for a `BitStream` without upstream (`src = none` never
invokes its reader). -/
def unitRd : Rd PUnit := fun u _ => some ([], u)

structure AriEncoder (σ : Type) where
  src : Option (BitStream σ)
  model : AdaptiveModel
  bits_per_symbol : Nat
  max_symbol : Nat
  output_bs : BitStream PUnit
  pending_bits : Nat
  done : Bool
  high : Nat
  low : Nat

/-- The struct literal built by `AriEncoder::new_adaptive` (after its
assertion has passed). -/
def AriEncoder.mk0 (σ : Type) (bits_per_symbol max_symbol : Nat) :
    AriEncoder σ :=
  { src := none
    model := AdaptiveModel.new max_symbol MAX_FREQ
    bits_per_symbol := bits_per_symbol
    max_symbol := max_symbol
    output_bs := BitStream.new
    pending_bits := 0
    done := false
    high := ONE
    low := 0 }

/-- `AriEncoder::new_adaptive(bits_per_symbol, max_symbol)`: `none` models
the assertion failure (panic). -/
def AriEncoder.new_adaptive (σ : Type) (bits_per_symbol max_symbol : Nat) :
    Option (AriEncoder σ) :=
  if ariNewGuard bits_per_symbol max_symbol then
    some (AriEncoder.mk0 σ bits_per_symbol max_symbol)
  else none

def AriEncoder.eof_symbol {σ : Type} (e : AriEncoder σ) : Nat :=
  e.max_symbol + 1

/-- `attach_reader`: wrap the upstream source into a fresh `BitStream`. -/
def AriEncoder.attach_reader {σ : Type} (e : AriEncoder σ) (upstream : σ) :
    AriEncoder σ :=
  let bs := { (BitStream.new : BitStream σ) with src := some upstream }
  { e with src := some bs }

/-- The `while pending_bits > 0` run of opposite bits. -/
def pendRun (bs : BitStream PUnit) (b : Bool) : Nat → BitStream PUnit
  | 0 => bs
  | k + 1 => pendRun (bs.write_bit b) b k

/-- `output_bit_plus_pending(bit)`: the chosen bit, then `pending_bits`
copies of its negation; returns the number of bits written. -/
def AriEncoder.output_bit_plus_pending {σ : Type} (e : AriEncoder σ)
    (bit : Bool) : Nat × AriEncoder σ :=
  let written := 1 + e.pending_bits
  let bs := pendRun (e.output_bs.write_bit bit) (!bit) e.pending_bits
  (written, { e with output_bs := bs, pending_bits := 0 })

/-- The renormalization loop of `write_bits_for_symbol` (E1/E2/E3 cases). -/
def AriEncoder.renorm {σ : Type} : Nat → AriEncoder σ → Nat →
    Option (Nat × AriEncoder σ)
  | 0, _, _ => none
  | fuel + 1, e, written =>
      if e.high < ONE_HALF then
        let (w, e) := e.output_bit_plus_pending false
        AriEncoder.renorm fuel
          { e with high := ((e.high <<< 1) + 1) &&& ONE
                   low := (e.low <<< 1) &&& ONE } (written + w)
      else if ONE_HALF ≤ e.low then
        let (w, e) := e.output_bit_plus_pending true
        AriEncoder.renorm fuel
          { e with high := ((e.high <<< 1) + 1) &&& ONE
                   low := (e.low <<< 1) &&& ONE } (written + w)
      else if ONE_FOURTH ≤ e.low ∧ e.high < THREE_FOURTHS then
        let e := { e with pending_bits := e.pending_bits + 1
                          low := wsub 64 e.low ONE_FOURTH
                          high := wsub 64 e.high ONE_FOURTH }
        AriEncoder.renorm fuel
          { e with high := ((e.high <<< 1) + 1) &&& ONE
                   low := (e.low <<< 1) &&& ONE } written
      else some (written, e)

/-- `write_bits_for_symbol(symbol)`: narrow the interval by the model's
probability triple, then renormalize.  A zero `denom` would be a division
panic in the source (`none`); it is unreachable from the constructed models. -/
def AriEncoder.write_bits_for_symbol {σ : Type} (fuel : Nat)
    (e : AriEncoder σ) (symbol : Nat) : Option (Nat × AriEncoder σ) :=
  let (p, model') := e.model.get_probability symbol
  let e := { e with model := model' }
  if p.denom = 0 then none
  else
    let range := (wsub 64 e.high e.low + 1) % 2 ^ 64
    let e := { e with
      high := wsub 64 ((e.low + range * p.upper % 2 ^ 64 / p.denom) % 2 ^ 64) 1
      low := (e.low + range * p.lower % 2 ^ 64 / p.denom) % 2 ^ 64 }
    AriEncoder.renorm fuel e 0

/-- `write_eof`: encode the EOF symbol and flush one disambiguating bit plus
the pending run; idempotent via the `done` flag. -/
def AriEncoder.write_eof {σ : Type} (fuel : Nat) (e : AriEncoder σ) :
    Option (Nat × AriEncoder σ) :=
  if e.done then some (0, e)
  else
    (e.write_bits_for_symbol fuel e.eof_symbol).bind fun (w, e) =>
      let e := { e with pending_bits := e.pending_bits + 1 }
      let (w2, e) :=
        if e.low < ONE_FOURTH then e.output_bit_plus_pending false
        else e.output_bit_plus_pending true
      some (w + w2, { e with done := true })

/-- The EOF drain of `AriEncoder::read`: read whole bytes from the output
BitStream into the caller's buffer; a final partial byte is left-aligned.
Falling off the end of the buffer loop is the source's
`Err("failed to read for unknown reason")`. -/
def ariFlushDrain (bs : BitStream PUnit) : Nat →
    Option (List Nat × BitStream PUnit)
  | 0 => none
  | k + 1 =>
      match bs.read_byte unitRd 0 with
      | none => none
      | some (bits, b, bs') =>
          if bits = 0 then some ([], bs')
          else if bits < 8 then some ([mshl8 b (8 - bits)], bs')
          else
            match ariFlushDrain bs' k with
            | none => none
            | some (bytes, bs'') => some (b :: bytes, bs'')

/-- The symbol loop of `AriEncoder::read`: emit coded bits until the output
BitStream can satisfy the request, or the upstream symbol stream ends. -/
def AriEncoder.readLoop {σ : Type} (rd : Rd σ) : Nat → AriEncoder σ →
    BitStream σ → Nat → Option (List Nat × AriEncoder σ)
  | 0, _, _, _ => none
  | fuel + 1, e, bs, bufLen =>
      if bufLen * 8 ≤ e.output_bs.bits_in_stream then
        (e.output_bs.readBytes unitRd bufLen).map fun (bytes, obs) =>
          (bytes, { e with output_bs := obs, src := some bs })
      else
        match bs.read_n_bits_u64 rd e.bits_per_symbol with
        | none => none
        | some (nread, sym, bs') =>
            if nread < e.bits_per_symbol then
              (AriEncoder.write_eof (fuel + 1) e).bind fun (_, e) =>
                (ariFlushDrain e.output_bs bufLen).map fun (bytes, obs) =>
                  (bytes, { e with output_bs := obs, src := some bs' })
            else
              (e.write_bits_for_symbol (fuel + 1) (wrap 16 sym)).bind
                fun (_, e) => AriEncoder.readLoop rd fuel e bs' bufLen

/-- `impl Read for AriEncoder`. -/
def AriEncoder.read {σ : Type} (rd : Rd σ) (fuel : Nat) (e : AriEncoder σ)
    (bufLen : Nat) : Option (List Nat × AriEncoder σ) :=
  match e.src with
  | none => some ([], e)
  | some bs => AriEncoder.readLoop rd fuel { e with src := none } bs bufLen

structure AriDecoder (σ : Type) where
  src : Option (BitStream σ)
  model : AdaptiveModel
  bits_per_symbol : Nat
  max_symbol : Nat
  output_bs : BitStream PUnit
  done : Bool
  high : Nat
  low : Nat
  value : Nat

/-- The struct literal built by `AriDecoder::new_adaptive` (after its
assertion has passed); `value = u64::MAX` until primed. -/
def AriDecoder.mk0 (σ : Type) (bits_per_symbol max_symbol : Nat) :
    AriDecoder σ :=
  { src := none
    model := AdaptiveModel.new max_symbol MAX_FREQ
    bits_per_symbol := bits_per_symbol
    max_symbol := max_symbol
    output_bs := BitStream.new
    done := false
    high := ONE
    low := 0
    value := 2 ^ 64 - 1 }

/-- `AriDecoder::new_adaptive(bits_per_symbol, max_symbol)`. -/
def AriDecoder.new_adaptive (σ : Type) (bits_per_symbol max_symbol : Nat) :
    Option (AriDecoder σ) :=
  if ariNewGuard bits_per_symbol max_symbol then
    some (AriDecoder.mk0 σ bits_per_symbol max_symbol)
  else none

def AriDecoder.eof_symbol {σ : Type} (d : AriDecoder σ) : Nat :=
  d.max_symbol + 1

/-- `attach_reader` of the decoder primes the pump: read `CODE_BITS` bits
into `value`, left-aligning a short read. -/
def AriDecoder.attach_reader {σ : Type} (rd : Rd σ) (d : AriDecoder σ)
    (upstream : σ) : Option (AriDecoder σ) :=
  let bs := { (BitStream.new : BitStream σ) with src := some upstream }
  (bs.read_n_bits_u64 rd CODE_BITS).map fun (bits, v, bs') =>
    { d with value := mshl64 v (CODE_BITS - bits), src := some bs' }

/-- The decoder's renormalization loop, mirroring the encoder and shifting
the next upstream bit (or zero) into `value`. -/
def AriDecoder.renorm {σ : Type} (rd : Rd σ) : Nat → AriDecoder σ →
    BitStream σ → Option (AriDecoder σ × BitStream σ)
  | 0, _, _ => none
  | fuel + 1, d, bs =>
      let step := fun (d : AriDecoder σ) (bs : BitStream σ) =>
        let (bitOpt, bs') := bs.read_bit rd
        let next_bit := match bitOpt with
          | some true => 1
          | _ => 0
        (({ d with low := (d.low <<< 1) &&& ONE
                   high := ((d.high <<< 1) + 1) &&& ONE
                   value := ((d.value <<< 1) % 2 ^ 64 + next_bit) % 2 ^ 64 } :
            AriDecoder σ), bs')
      if d.high < ONE_HALF then
        let (d, bs) := step d bs
        AriDecoder.renorm rd fuel d bs
      else if ONE_HALF ≤ d.low then
        let d := { d with value := wsub 64 d.value ONE_HALF
                          low := wsub 64 d.low ONE_HALF
                          high := wsub 64 d.high ONE_HALF }
        let (d, bs) := step d bs
        AriDecoder.renorm rd fuel d bs
      else if ONE_FOURTH ≤ d.low ∧ d.high < THREE_FOURTHS then
        let d := { d with value := wsub 64 d.value ONE_FOURTH
                          low := wsub 64 d.low ONE_FOURTH
                          high := wsub 64 d.high ONE_FOURTH }
        let (d, bs) := step d bs
        AriDecoder.renorm rd fuel d bs
      else some (d, bs)

/-- Note: the source shifts `value` before OR-ing the next bit, and shifts
`low`/`high` in the same iteration; the loop above mirrors that order. -/
def AriDecoder.read_bits_for_symbol {σ : Type} (rd : Rd σ) (fuel : Nat)
    (d : AriDecoder σ) : Option (Option Nat × AriDecoder σ) :=
  if d.done then some (none, d)
  else
    let range := (wsub 64 d.high d.low + 1) % 2 ^ 64
    if range = 0 then none
    else
      let scaled :=
        wsub 64 ((wsub 64 d.value d.low + 1) % 2 ^ 64 * d.model.count % 2 ^ 64)
          1 / range
      match d.model.get_symbol scaled with
      | none => some (none, d)
      | some (symbol, p, model') =>
          let d := { d with model := model' }
          if symbol = d.eof_symbol then some (none, { d with done := true })
          else
            match d.src with
            | none => some (none, d)
            | some bs =>
                if p.denom = 0 then none
                else
                  let newHigh := wsub 64
                    ((d.low + range * p.upper % 2 ^ 64 / p.denom) % 2 ^ 64) 1
                  let newLow :=
                    (d.low + range * p.lower % 2 ^ 64 / p.denom) % 2 ^ 64
                  let d := { d with src := none, high := newHigh, low := newLow }
                  (AriDecoder.renorm rd fuel d bs).map fun (d, bs) =>
                    (some symbol, { d with src := some bs })

/-- `impl Read for AriDecoder`: decode symbols into the output BitStream
until the request can be served, then drain bytes. -/
def AriDecoder.read {σ : Type} (rd : Rd σ) : Nat → AriDecoder σ → Nat →
    Option (List Nat × AriDecoder σ)
  | 0, _, _ => none
  | fuel + 1, d, bufLen =>
      if bufLen * 8 ≤ d.output_bs.bits_in_stream then
        (d.output_bs.readBytes unitRd bufLen).map fun (bytes, obs) =>
          (bytes, { d with output_bs := obs })
      else
        match d.read_bits_for_symbol rd (fuel + 1) with
        | none => none
        | some (some sym, d) =>
            AriDecoder.read rd fuel
              { d with output_bs :=
                  d.output_bs.write_n_bits_u64 d.bits_per_symbol sym } bufLen
        | some (none, d) =>
            (d.output_bs.readBytes unitRd bufLen).map fun (bytes, obs) =>
              (bytes, { d with output_bs := obs })

/-!
## MTF (`src/compression/mtf.rs`)
-/

structure MtfEncoder (σ : Type) where
  src : Option σ
  mapping : List Nat

/-- `MtfEncoder::new`: identity permutation. -/
def MtfEncoder.new (σ : Type) : MtfEncoder σ :=
  { src := none, mapping := List.range 256 }

/-- `shift_index(index)`: move `mapping[index]` to the front, shifting the
prefix right by one. -/
def mtfShiftIndex (mapping : List Nat) (index : Nat) : List Nat :=
  mapping.getD index 0 :: (mapping.take index ++ mapping.drop (index + 1))

/-- `encode_byte(byte)`: the byte's current rank, then move-to-front. -/
def MtfEncoder.encode_byte {σ : Type} (m : MtfEncoder σ) (byte : Nat) :
    Nat × MtfEncoder σ :=
  let rank := m.mapping.indexOf byte
  (rank, { m with mapping := mtfShiftIndex m.mapping rank })

/-- The byte loop of `MtfEncoder::read`. -/
def MtfEncoder.readGo {σ : Type} (rd : Rd σ) (mapping : List Nat) (src : σ) :
    Nat → Option (List Nat × List Nat × σ)
  | 0 => some ([], mapping, src)
  | k + 1 =>
      match rd src 1 with
      | none => none
      | some ([], src') => some ([], mapping, src')
      | some (byte :: _, src') =>
          let rank := mapping.indexOf byte
          match MtfEncoder.readGo rd (mtfShiftIndex mapping rank) src' k with
          | none => none
          | some (out, mp, s) => some (rank :: out, mp, s)

/-- `impl Read for MtfEncoder`. -/
def MtfEncoder.read {σ : Type} (rd : Rd σ) (m : MtfEncoder σ)
    (bufLen : Nat) : Option (List Nat × MtfEncoder σ) :=
  match m.src with
  | none => some ([], m)
  | some src =>
      (MtfEncoder.readGo rd m.mapping src bufLen).map fun (out, mp, s) =>
        (out, { src := some s, mapping := mp })

/-!
## BZRLE (`src/compression/bzrle.rs`)
-/

/-- The `while n > 0` loop of `u32_to_bijective`.  The digit index `i` never
exceeds 31 before the loop stops: at `i = 31` the divisor `place * 2`
wraps to zero and the modulo operation panics (`none`), so 33 fuel is always
enough and `none` can only denote that panic. -/
def u32_to_bijective_go (symbol_a symbol_b : Nat) :
    Nat → Nat → Nat → Option (List Nat)
  | 0, _, _ => none
  | fuel + 1, n, i =>
      if n = 0 then some []
      else
        let place := 2 ^ (i % 32) % 2 ^ 32
        let twoPlace := place * 2 % 2 ^ 32
        if twoPlace = 0 then none
        else if n % twoPlace = 0 then
          (u32_to_bijective_go symbol_a symbol_b fuel (wsub 32 n twoPlace)
            (i + 1)).map (symbol_b :: ·)
        else
          (u32_to_bijective_go symbol_a symbol_b fuel (wsub 32 n place)
            (i + 1)).map (symbol_a :: ·)

/-- `u32_to_bijective(n, a, b)`: bijective base-2 digits of `n`, least
significant first. -/
def u32_to_bijective (n symbol_a symbol_b : Nat) : Option (List Nat) :=
  u32_to_bijective_go symbol_a symbol_b 33 n 0

/-- The `for i in 0..len` loop of `bijective_to_u32` (u32 arithmetic). -/
def bijective_to_u32_go (symbol_a : Nat) :
    List Nat → Nat → Nat → Nat
  | [], _, total => total
  | d :: rest, i, total =>
      let place := 2 ^ (i % 32) % 2 ^ 32
      if d = symbol_a then
        bijective_to_u32_go symbol_a rest (i + 1) ((total + place) % 2 ^ 32)
      else
        bijective_to_u32_go symbol_a rest (i + 1)
          ((total + place * 2 % 2 ^ 32) % 2 ^ 32)

/-- `bijective_to_u32(digits, a, b)`: any digit other than `a` contributes
as `b` (the source compares against `a` only). -/
def bijective_to_u32 (bijective : List Nat) (symbol_a symbol_b : Nat) : Nat :=
  let _ := symbol_b
  bijective_to_u32_go symbol_a bijective 0 0

structure BzrleEncoder (σ : Type) where
  src : Option σ
  zero_count : Nat
  output_bs : BitStream PUnit
  symbol_a : Nat
  symbol_b : Nat
  bits_per_symbol : Nat

def BzrleEncoder.new (σ : Type) (symbol_a symbol_b bits_per_symbol : Nat) :
    BzrleEncoder σ :=
  { src := none, zero_count := 0, output_bs := BitStream.new
    symbol_a := symbol_a, symbol_b := symbol_b
    bits_per_symbol := bits_per_symbol }

/-- Writing a list of symbols, `bits_per_symbol` bits each. -/
def bzrleWriteSyms (bs : BitStream PUnit) (w : Nat) : List Nat → BitStream PUnit
  | [] => bs
  | sym :: rest => bzrleWriteSyms (bs.write_n_bits_u64 w sym) w rest

/-- `flush_count`: emit the pending zero run in bijective base-2. -/
def BzrleEncoder.flush_count {σ : Type} (e : BzrleEncoder σ) :
    Option (BzrleEncoder σ) :=
  if 0 < e.zero_count then
    (u32_to_bijective e.zero_count e.symbol_a e.symbol_b).map fun bij =>
      { e with output_bs := bzrleWriteSyms e.output_bs e.bits_per_symbol bij
               zero_count := 0 }
  else some e

/-- The byte loop of `BzrleEncoder::read`. -/
def BzrleEncoder.readLoop {σ : Type} (rd : Rd σ) :
    Nat → BzrleEncoder σ → σ → Nat → Option (List Nat × BzrleEncoder σ)
  | 0, _, _, _ => none
  | fuel + 1, e, src, bufLen =>
      if bufLen * 8 ≤ e.output_bs.bits_in_stream then
        (e.output_bs.readBytes unitRd bufLen).map fun (bytes, obs) =>
          (bytes, { e with output_bs := obs, src := some src })
      else
        match rd src 1 with
        | none => none
        | some ([], src') =>
            e.flush_count.bind fun e =>
              (e.output_bs.readBytes unitRd bufLen).map fun (bytes, obs) =>
                (bytes, { e with output_bs := obs, src := some src' })
        | some (byte :: _, src') =>
            if byte = 0 then
              BzrleEncoder.readLoop rd fuel
                { e with zero_count := (e.zero_count + 1) % 2 ^ 32 } src' bufLen
            else
              e.flush_count.bind fun e =>
                BzrleEncoder.readLoop rd fuel
                  { e with output_bs :=
                      e.output_bs.write_n_bits_u64 e.bits_per_symbol byte }
                  src' bufLen

/-- `impl Read for BzrleEncoder`. -/
def BzrleEncoder.read {σ : Type} (rd : Rd σ) (fuel : Nat)
    (e : BzrleEncoder σ) (bufLen : Nat) :
    Option (List Nat × BzrleEncoder σ) :=
  match e.src with
  | none => some ([], e)
  | some src => BzrleEncoder.readLoop rd fuel { e with src := none } src bufLen

/-- The byte loop of `BzrleEncoder::read` at symbol level: the encoder's
output BitStream receives exactly these `bits_per_symbol`-bit symbols, in
this order (each non-zero byte flushes the pending zero run first; end of
stream flushes the trailing run).  `zero_count` is the `u32` run counter. -/
def bzrleEncodeSyms (symbol_a symbol_b : Nat) :
    List Nat → Nat → Option (List Nat)
  | [], zero_count =>
      if 0 < zero_count then u32_to_bijective zero_count symbol_a symbol_b
      else some []
  | byte :: rest, zero_count =>
      if byte = 0 then
        bzrleEncodeSyms symbol_a symbol_b rest ((zero_count + 1) % 2 ^ 32)
      else
        (if 0 < zero_count then u32_to_bijective zero_count symbol_a symbol_b
         else some ([] : List Nat)).bind fun flushed =>
          (bzrleEncodeSyms symbol_a symbol_b rest 0).map fun out =>
            flushed ++ byte :: out

/-- Whether a symbol compares equal (as `u16`) to one of the sentinels —
the guard of the inner sentinel-collecting loop of `BzrleDecoder::read`. -/
def bzrleIsSentinel (symbol_a symbol_b s : Nat) : Bool :=
  wrap 16 s = symbol_a ∨ wrap 16 s = symbol_b

/-- The symbol loop of `BzrleDecoder::read` at symbol level: collect a
maximal run of sentinel symbols, emit its bijective value in zero bytes,
then emit the following symbol as a byte (`as u8`), and continue. -/
def bzrleDecodeSyms (symbol_a symbol_b : Nat) (syms : List Nat) : List Nat :=
  if syms = [] then []
  else
    let digits := syms.takeWhile (bzrleIsSentinel symbol_a symbol_b)
    let zeros :=
      if digits = [] then []
      else List.replicate (bijective_to_u32 digits symbol_a symbol_b) 0
    match hr : syms.dropWhile (bzrleIsSentinel symbol_a symbol_b) with
    | [] => zeros
    | x :: t => zeros ++ x % 256 :: bzrleDecodeSyms symbol_a symbol_b t
termination_by syms.length
decreasing_by
  have h1 := congrArg List.length
    (List.takeWhile_append_dropWhile (bzrleIsSentinel symbol_a symbol_b) syms)
  rw [hr] at h1
  simp only [List.length_append, List.length_cons] at h1
  omega

/-- Specification value of a bijective-base-2 digit list starting at place
`i`: digit `a` contributes `2^i`, any other digit (i.e. `b`) contributes
`2·2^i`. -/
def bijVal (symbol_a : Nat) : List Nat → Nat → Nat
  | [], _ => 0
  | d :: rest, i =>
      (if d = symbol_a then 2 ^ i else 2 ^ (i + 1)) + bijVal symbol_a rest (i + 1)

/-- Length of the maximal zero prefix of a byte list. -/
def leadingZeros : List Nat → Nat
  | [] => 0
  | x :: t => if x = 0 then leadingZeros t + 1 else 0

/-!
## BWT and SA-IS (`src/compression/bwt.rs`)

Arrays of `i32` are `List Int` (`-1` is the empty-slot marker of the source);
`arr[i] = v` is `List.set`, reads are `getD` with default `0`/`false`
(out-of-bounds reads/writes do not occur in the flows exercised here).
-/

namespace sais

def is_lms (t : List Bool) (i : Nat) : Bool :=
  i ≠ 0 && (t.getD i false && !t.getD (i - 1) false)

def bucket_sizes (s : List Int) (alphabet_size : Nat) : List Nat :=
  s.foldl (fun b c => b.set c.toNat (b.getD c.toNat 0 + 1))
    (List.replicate alphabet_size 0)

/-- `bucket_heads`: running start offsets, beginning at 1. -/
def bucket_heads (bucket_sizes : List Nat) : List Int :=
  (bucket_sizes.foldl
    (fun (p : List Int × Int) size => (p.1 ++ [p.2], p.2 + size)) ([], 1)).1

/-- `bucket_tails`: running end offsets, beginning at 1. -/
def bucket_tails (bucket_sizes : List Nat) : List Int :=
  (bucket_sizes.foldl
    (fun (p : List Int × Int) size => (p.1 ++ [p.2 + size - 1], p.2 + size))
    ([], 1)).1

def guess_sa_lms_sort (s : List Int) (bsz : List Nat) (t : List Bool) :
    List Int :=
  let init : List Int × List Int :=
    (List.replicate (s.length + 1) (-1), bucket_tails bsz)
  let p := (List.range s.length).foldl
    (fun (p : List Int × List Int) i =>
      if is_lms t i then
        let bucket := (s.getD i 0).toNat
        let pos := (p.2.getD bucket 0).toNat
        (p.1.set pos (Int.ofNat i), p.2.set bucket (p.2.getD bucket 0 - 1))
      else p) init
  p.1.set 0 (Int.ofNat s.length)

def induce_sort_l (s : List Int) (guessed_sa : List Int) (bsz : List Nat)
    (t : List Bool) : List Int :=
  let init : List Int × List Int := (guessed_sa, bucket_heads bsz)
  (( List.range guessed_sa.length).foldl
    (fun (p : List Int × List Int) i =>
      if p.1.getD i 0 = -1 then p
      else
        let j := p.1.getD i 0 - 1
        if j < 0 then p
        else if t.getD j.toNat false then p
        else
          let bucket := (s.getD j.toNat 0).toNat
          let pos := (p.2.getD bucket 0).toNat
          (p.1.set pos j, p.2.set bucket (p.2.getD bucket 0 + 1))) init).1

def induce_sort_s (s : List Int) (guessed_sa : List Int) (bsz : List Nat)
    (t : List Bool) : List Int :=
  let init : List Int × List Int := (guessed_sa, bucket_tails bsz)
  (((List.range guessed_sa.length).reverse).foldl
    (fun (p : List Int × List Int) i =>
      let j := p.1.getD i 0 - 1
      if j < 0 then p
      else if !t.getD j.toNat false then p
      else
        let bucket := (s.getD j.toNat 0).toNat
        let pos := (p.2.getD bucket 0).toNat
        (p.1.set pos j, p.2.set bucket (p.2.getD bucket 0 - 1))) init).1

/-- The comparison loop of `lms_eq`; the fuel bounds the scan (it can never
run past the string in the real flows). -/
def lms_eq_go (s : List Int) (t : List Bool) (a b : Nat) :
    Nat → Nat → Bool
  | 0, _ => false
  | fuel + 1, i =>
      let a_is_lms := is_lms t (a + i)
      let b_is_lms := is_lms t (b + i)
      if 0 < i ∧ a_is_lms ∧ b_is_lms then true
      else if a_is_lms ≠ b_is_lms then false
      else if s.getD (a + i) 0 ≠ s.getD (b + i) 0 then false
      else lms_eq_go s t a b fuel (i + 1)

def lms_eq (s : List Int) (t : List Bool) (a b : Nat) : Bool :=
  if a = s.length ∨ b = s.length then false
  else lms_eq_go s t a b (s.length + 2) 0

def summarise_sa (s : List Int) (guessed_sa : List Int) (t : List Bool) :
    List Int × Nat × List Int :=
  let lms_names : List Int := List.replicate (s.length + 1) (-1)
  let first := (guessed_sa.getD 0 0).toNat
  let lms_names := lms_names.set first 0
  let st := (List.range guessed_sa.length).drop 1 |>.foldl
    (fun (p : List Int × Int × Nat) i =>
      let suffix_offset := (guessed_sa.getD i 0).toNat
      if !is_lms t suffix_offset then p
      else
        let name := if !lms_eq s t p.2.2 suffix_offset then p.2.1 + 1 else p.2.1
        (p.1.set suffix_offset name, name, suffix_offset))
    (lms_names, 0, first)
  let pairs := (List.range st.1.length).filterMap fun i =>
    if st.1.getD i 0 = -1 then none else some (Int.ofNat i, st.1.getD i 0)
  (pairs.map Prod.snd, (st.2.1 + 1).toNat, pairs.map Prod.fst)

def accurate_lms_sort (s : List Int) (bsz : List Nat) (t : List Bool)
    (summary_sa : List Int) (summary_suffix_offsets : List Int) : List Int :=
  let init : List Int × List Int :=
    (List.replicate (s.length + 1) (-1), bucket_tails bsz)
  let p := (((List.range summary_sa.length).drop 2).reverse).foldl
    (fun (p : List Int × List Int) i =>
      let string_index :=
        (summary_suffix_offsets.getD (summary_sa.getD i 0).toNat 0).toNat
      let bucket := (s.getD string_index 0).toNat
      let pos := (p.2.getD bucket 0).toNat
      (p.1.set pos (Int.ofNat string_index),
       p.2.set bucket (p.2.getD bucket 0 - 1))) init
  p.1.set 0 (Int.ofNat s.length)

/-- `sais_i32`.  On the empty string the classification loop
`for i in (0..s.len() - 1).rev()` underflows its range and indexes out of
bounds — a panic in every build profile — modelled as `none`.  The `fuel`
bounds the summary-string recursion depth (each recursion at least halves
the string, so `s.length + 2` is always enough). -/
def sais_i32 : Nat → List Int → Nat → Option (List Int)
  | 0, _, _ => none
  | fuel + 1, s, alphabet_size =>
      if s.length = 0 then none
      else
        let t0 := (List.replicate (s.length + 1) false).set s.length true
        let t := ((List.range (s.length - 1)).reverse).foldl
          (fun t i =>
            t.set i (decide (s.getD i 0 < s.getD (i + 1) 0) ||
              (decide (s.getD i 0 = s.getD (i + 1) 0) && t.getD (i + 1) false)))
          t0
        let bsz := bucket_sizes s alphabet_size
        let guessed := guess_sa_lms_sort s bsz t
        let guessed := induce_sort_l s guessed bsz t
        let guessed := induce_sort_s s guessed bsz t
        let summary := summarise_sa s guessed t
        let summary_sa :=
          if summary.2.1 = summary.1.length then
            some (((List.range summary.1.length).foldl
              (fun sa i =>
                sa.set ((summary.1.getD i 0).toNat + 1) (Int.ofNat i))
              ((List.replicate (summary.1.length + 1) (-1 : Int)).set 0
                (Int.ofNat summary.1.length))))
          else sais_i32 fuel summary.1 summary.2.1
        summary_sa.map fun ssa =>
          let result := accurate_lms_sort s bsz t ssa summary.2.2
          let result := induce_sort_l s result bsz t
          induce_sort_s s result bsz t

def sais (s : List Nat) : Option (List Int) :=
  sais_i32 (s.length + 2) (s.map Int.ofNat) 256

end sais

/-- Lexicographic order on byte lists (`<=`), as `[u8]::cmp`. -/
def listLexLe : List Nat → List Nat → Bool
  | [], _ => true
  | _ :: _, [] => false
  | a :: x, b :: y => if a < b then true else if b < a then false else listLexLe x y

def insertSorted (le : Nat → Nat → Bool) (i : Nat) : List Nat → List Nat
  | [] => [i]
  | j :: rest => if le i j then i :: j :: rest else j :: insertSorted le i rest

/-- `slow_sa`: the naive suffix array — indices sorted by suffix order
(the suffix keys are pairwise distinct, so any sort gives this order). -/
def slow_sa (s : List Nat) : List Int :=
  ((List.range s.length).foldl
    (fun acc i => insertSorted (fun a b => listLexLe (s.drop a) (s.drop b)) i acc)
    []).map Int.ofNat

/-- `bwt(s)`: last column and primary index, via SA-IS on `s ++ s`. -/
def bwt (s : List Nat) : Option (List Nat × Nat) :=
  if s.length = 1 then some (s, 0)
  else
    (sais.sais (s ++ s)).map fun sa =>
      let sorted := (sa.drop 1).filter fun i => i < (s.length : Int)
      let original := (List.range sorted.length).foldl
        (fun orig i => if sorted.getD i 0 = 0 then i else orig) 0
      (sorted.map fun p => s.getD ((p.toNat + s.length - 1) % s.length) 0,
       original)

def bucket_sizes_u8 (bytes : List Nat) : List Nat :=
  bytes.foldl (fun b c => b.set c (b.getD c 0 + 1)) (List.replicate 256 0)

/-- The zero-based `bucket_heads` of `inverse_bwt` (unlike the 1-based one
inside `sais`). -/
def bucket_heads (bucket_sizes : List Nat) : List Nat :=
  (bucket_sizes.foldl
    (fun (p : List Nat × Nat) size => (p.1 ++ [p.2], p.2 + size)) ([], 0)).1

/-- The reconstruction loop of `inverse_bwt`. -/
def ibwtEmit (last_column mapping : List Nat) : Nat → Nat → List Nat
  | _, 0 => []
  | cur, k + 1 =>
      last_column.getD cur 0 :: ibwtEmit last_column mapping (mapping.getD cur 0) k

/-- `inverse_bwt(last_column, original_idx)`. -/
def inverse_bwt (last_column : List Nat) (original_idx : Nat) : List Nat :=
  if last_column.length = 1 then last_column
  else
    let bsz := bucket_sizes_u8 last_column
    let heads := bucket_heads bsz
    let sorted := (last_column.foldl
      (fun (p : List Nat × List Nat) b =>
        (p.1.set (p.2.getD b 0) b, p.2.set b (p.2.getD b 0 + 1)))
      (List.replicate last_column.length 0, heads)).1
    let mapping := ((List.range last_column.length).foldl
      (fun (p : List Nat × List Nat × List Nat) i =>
        let x := last_column.getD i 0
        let y := sorted.getD i 0
        let x_bucket := p.2.1.getD x 0
        let y_bucket := p.2.2.getD y 0
        (p.1.set x_bucket y_bucket,
         p.2.1.set x (x_bucket + 1), p.2.2.set y (y_bucket + 1)))
      (List.replicate last_column.length 0, heads, heads)).1
    ibwtEmit last_column mapping (mapping.getD original_idx 0)
      last_column.length

structure BwtEncoder (σ : Type) where
  src : Option σ
  output_bs : BitStream PUnit
  block_size : Nat
  original_index_bits : Nat

/-- `BwtEncoder::new(block_size, original_index_bits)`: no parameter is
checked; construction always succeeds. -/
def BwtEncoder.new (σ : Type) (block_size original_index_bits : Nat) :
    BwtEncoder σ :=
  { src := none, output_bs := BitStream.new
    block_size := block_size, original_index_bits := original_index_bits }

/-- The block loop of `BwtEncoder::read`. -/
def BwtEncoder.readLoop {σ : Type} (rd : Rd σ) :
    Nat → BwtEncoder σ → σ → Nat → Option (List Nat × BwtEncoder σ)
  | 0, _, _, _ => none
  | fuel + 1, e, src, bufLen =>
      if bufLen * 8 ≤ e.output_bs.bits_in_stream then
        (e.output_bs.readBytes unitRd bufLen).map fun (bytes, obs) =>
          (bytes, { e with output_bs := obs, src := some src })
      else
        match rd src e.block_size with
        | none => none
        | some ([], src') =>
            (e.output_bs.readBytes unitRd bufLen).map fun (bytes, obs) =>
              (bytes, { e with output_bs := obs, src := some src' })
        | some (chunk, src') =>
            (bwt chunk).bind fun bw =>
              let obs :=
                (e.output_bs.write_n_bits_u64 e.original_index_bits
                  bw.2).writeBytes bw.1
              BwtEncoder.readLoop rd fuel { e with output_bs := obs } src'
                bufLen

/-- `impl Read for BwtEncoder`. -/
def BwtEncoder.read {σ : Type} (rd : Rd σ) (fuel : Nat) (e : BwtEncoder σ)
    (bufLen : Nat) : Option (List Nat × BwtEncoder σ) :=
  match e.src with
  | none => some ([], e)
  | some src => BwtEncoder.readLoop rd fuel { e with src := none } src bufLen

/-!
## The compression pipeline (`src/main.rs`)

`Pipeline::pipe` interposes an `IdentityTransform`, an `RcReader` and a
`BufReader` between consecutive stages; all three forward the byte stream
unchanged and are modelled as transparent.
-/

abbrev BwtSt := BwtEncoder (List Nat)
abbrev MtfSt := MtfEncoder BwtSt
abbrev BzSt := BzrleEncoder MtfSt
abbrev AriSt := AriEncoder BzSt

def bwtRd (fuel : Nat) : Rd BwtSt := fun st n => BwtEncoder.read listRd fuel st n

def mtfRd (fuel : Nat) : Rd MtfSt := fun st n => MtfEncoder.read (bwtRd fuel) st n

def bzrleRd (fuel : Nat) : Rd BzSt :=
  fun st n => BzrleEncoder.read (mtfRd fuel) fuel st n

/-- `make_compressor`: BWT(B = 2^24, W = 24) → MTF → BZRLE(0, 256, 16) →
ARI(16, 256), reading from the given input bytes. -/
def make_compressor (input : List Nat) : Option AriSt :=
  let bwt0 : BwtSt :=
    { BwtEncoder.new (List Nat) (2 ^ 24) 24 with src := some input }
  let mtf0 : MtfSt := { MtfEncoder.new BwtSt with src := some bwt0 }
  let bz0 : BzSt :=
    { BzrleEncoder.new MtfSt 0 256 16 with src := some mtf0 }
  (AriEncoder.new_adaptive BzSt 16 256).map fun ari => ari.attach_reader bz0

/-- `read_to_end` on the pipeline tail: read 1024-byte chunks until a read
returns zero bytes. -/
def readToEnd (innerFuel : Nat) : Nat → AriSt → Option (List Nat)
  | 0, _ => none
  | fuel + 1, st =>
      (AriEncoder.read (bzrleRd innerFuel) innerFuel st 1024).bind
        fun (bytes, st') =>
          if bytes = [] then some []
          else (readToEnd innerFuel fuel st').map (bytes ++ ·)

/-- The full compressor output on a given input. -/
def pipelineCompress (input : List Nat) (fuel : Nat) : Option (List Nat) :=
  (make_compressor input).bind (readToEnd fuel fuel)

/-- The head stage of `make_decompressor` — `AriDecoder::new_adaptive(16,
256)` — attached (hence primed) on the given compressed input. -/
def make_decompressor_head (input : List Nat) :
    Option (AriDecoder (List Nat)) :=
  (AriDecoder.new_adaptive (List Nat) 16 256).bind fun d =>
    d.attach_reader listRd input

/-!
## Theorems: BitStream claims
-/

/-- **C7** (code bug): `peek_n_bits(n)` does **not** always agree with
`read_n_bits(n)`.  On the stream obtained by writing bytes `0xAB 0xCD 0xEF`
and consuming 3 bits, the read-partial holds 5 bits and the queue is
nonempty, so `peek_n_bits(8)` computes its splice shift as
`8 - n - rbuf_index` in `u8`, which wraps; the peek returns bits `0x59`
while the equivalent read returns `0x5E` (both with count 8), contradicting
the claim (and the peek's own documentation). -/
theorem BitStream.peek_read_mismatch :
    ((((BitStream.new.write_byte 0xAB).write_byte 0xCD).write_byte
        0xEF).read_n_bits listRd 3 0 =
      some (3, 5, { src := none, bytes := [0xCD], wbuf_byte := 0xEF,
                    wbuf_index := 8, rbuf_byte := 0x58, rbuf_index := 5 })) ∧
    (({ src := none, bytes := [0xCD], wbuf_byte := 0xEF, wbuf_index := 8,
        rbuf_byte := 0x58, rbuf_index := 5 } : BitStream (List Nat)).peek_n_bits
        listRd 8 0 |>.map fun r => (r.1, r.2.1)) = some (8, 0x59) ∧
    (({ src := none, bytes := [0xCD], wbuf_byte := 0xEF, wbuf_index := 8,
        rbuf_byte := 0x58, rbuf_index := 5 } : BitStream (List Nat)).read_n_bits
        listRd 8 0 |>.map fun r => (r.1, r.2.1)) = some (8, 0x5E) ∧
    (0x59 : Nat) ≠ 0x5E := by
  refine ⟨by decide, by decide, by decide, by decide⟩

/-- **C8** (counterexample): `write_n_bits(0, v)` is *not* a no-op for every
`v` — it ORs `v` into the write-partial byte — and `read_n_bits(0, &out)`
*does* modify the caller's `out` byte: it overwrites it (here with the
read-partial byte `0x58`, although the caller held `7`). -/
theorem BitStream.write0_read0_cx :
    ((BitStream.new.write_n_bits 0 0xFF : BitStream (List Nat)) ≠
      BitStream.new) ∧
    (({ src := none, bytes := [0xCD], wbuf_byte := 0xEF, wbuf_index := 8,
        rbuf_byte := 0x58, rbuf_index := 5 } : BitStream (List Nat)).read_n_bits
        listRd 0 7 |>.map fun r => (r.1, r.2.1)) = some (0, 0x58) ∧
    (0x58 : Nat) ≠ 7 := by
  refine ⟨by decide, by decide, by decide⟩

/-- **C8** (amended): on any well-formed stream state, `write_n_bits(0, v)`
leaves the bit counters, the queue and the read side unchanged but ORs the
low 8 bits of `v` into the write-partial byte (hence it is a state no-op
exactly when those bits are 0); `read_n_bits(0, &out)` returns count 0,
leaves the stream unchanged, and overwrites `out` with the read-partial byte
(which is 0 in the fully-aligned case unless the write-partial holds a full
8 bits, in which case `out` receives the write-partial byte). -/
theorem BitStream.write0_read0_amended {σ : Type} (rd : Rd σ)
    (s : BitStream σ) (v out0 : Nat)
    (hwi : s.wbuf_index ≤ 8) (hwb : s.wbuf_byte < 2 ^ s.wbuf_index)
    (hrb : s.rbuf_byte < 256) :
    s.write_n_bits 0 v = { s with wbuf_byte := s.wbuf_byte ||| v % 256 } ∧
    (s.write_n_bits 0 v).bits_in_stream = s.bits_in_stream ∧
    s.read_n_bits rd 0 out0 = some (0,
      (if s.rbuf_index = 0 ∧ s.bytes = [] then
        (if s.wbuf_index = 8 then s.wbuf_byte else 0)
       else s.rbuf_byte), s) := by
  have hwb256 : s.wbuf_byte < 256 :=
    lt_of_lt_of_le hwb (Nat.pow_le_pow_right (by norm_num) hwi)
  have hcond : ¬ 8 < s.wbuf_index := by omega
  have h1 : mshr8 0xff (8 - 0) = 255 := by decide
  have h2 : cshl8 s.wbuf_byte 0 = s.wbuf_byte := by
    simp [cshl8, Nat.shiftLeft_eq, Nat.mod_eq_of_lt hwb256]
  have h3 : v % 256 &&& 255 = v % 256 := by
    rw [show (255 : Nat) = 2 ^ 8 - 1 by norm_num,
      Nat.and_pow_two_sub_one_eq_mod]
    omega
  have hwrite : s.write_n_bits 0 v =
      { s with wbuf_byte := s.wbuf_byte ||| v % 256 } := by
    rw [BitStream.write_n_bits]
    simp only [h1, Nat.add_zero, if_neg hcond, h2, h3]
  refine ⟨hwrite, by rw [hwrite]; rfl, ?_⟩
  rw [BitStream.read_n_bits]
  have hpull : ¬ (s.bits_in_stream < 0) := by omega
  simp only [hpull, if_false, Option.some_bind]
  by_cases hc : s.rbuf_index = 0 ∧ s.bytes = []
  · have hcond2 : ¬ (s.wbuf_index < 0) := by omega
    have hout : mshr8 s.wbuf_byte s.wbuf_index =
        (if s.wbuf_index = 8 then s.wbuf_byte else 0) := by
      rcases Nat.lt_or_ge s.wbuf_index 8 with h | h
      · have hne : s.wbuf_index ≠ 8 := by omega
        simp only [hne, if_false, mshr8, Nat.mod_eq_of_lt h,
          Nat.shiftRight_eq_div_pow]
        have hz : s.wbuf_byte / 2 ^ s.wbuf_index = 0 := Nat.div_eq_of_lt hwb
        simp [hz]
      · have h8 : s.wbuf_index = 8 := by omega
        simp [h8, mshr8, Nat.mod_eq_of_lt hwb256]
    have hmask : s.wbuf_byte &&& cshr8 0xff (8 - s.wbuf_index) =
        s.wbuf_byte := by
      have hm : cshr8 0xff (8 - s.wbuf_index) = 2 ^ s.wbuf_index - 1 := by
        interval_cases s.wbuf_index <;> decide
      rw [hm, Nat.and_pow_two_sub_one_eq_mod, Nat.mod_eq_of_lt hwb]
    obtain ⟨hr0, hb0⟩ := hc
    have hs : ({ s with bytes := ([] : List Nat), rbuf_index := 0 } :
        BitStream σ) = s := by
      cases s
      simp only at hr0 hb0
      simp [hr0, hb0]
    simp only [hr0, hb0, and_self, if_true, if_pos, if_neg hcond2,
      Nat.sub_zero, hout, hmask]
    rw [hs]
  · have hcond2 : ¬ (s.rbuf_index < 0) := by omega
    have hout : mshr8 s.rbuf_byte (8 - 0) = s.rbuf_byte := by
      simp [mshr8, Nat.mod_eq_of_lt hrb]
    have hshift : mshl8 s.rbuf_byte 0 = s.rbuf_byte := by
      simp [mshl8, Nat.shiftLeft_eq, Nat.mod_eq_of_lt hrb]
    simp only [hc, if_false, if_neg hcond2, hout, hshift, Nat.sub_zero]

/-- Witness for the amended C8 statement at a concrete well-formed state. -/
theorem BitStream.write0_read0_amended_witness :
    (({ src := none, bytes := [0xCD], wbuf_byte := 0xEF, wbuf_index := 8,
        rbuf_byte := 0x58, rbuf_index := 5 } : BitStream (List Nat)).write_n_bits
        0 0xFF =
      { src := none, bytes := [0xCD], wbuf_byte := 0xEF ||| 0xFF % 256,
        wbuf_index := 8, rbuf_byte := 0x58, rbuf_index := 5 }) ∧
    (({ src := none, bytes := [0xCD], wbuf_byte := 0xEF, wbuf_index := 8,
        rbuf_byte := 0x58, rbuf_index := 5 } : BitStream (List Nat)).read_n_bits
        listRd 0 7 =
      some (0, 0x58,
        { src := none, bytes := [0xCD], wbuf_byte := 0xEF, wbuf_index := 8,
          rbuf_byte := 0x58, rbuf_index := 5 })) := by
  have h := BitStream.write0_read0_amended listRd
    ({ src := none, bytes := [0xCD], wbuf_byte := 0xEF, wbuf_index := 8,
       rbuf_byte := 0x58, rbuf_index := 5 } : BitStream (List Nat))
    0xFF 7 (by decide) (by decide) (by decide)
  exact ⟨h.1, by simpa using h.2.2⟩

/-!
## Adaptive-model helper lemmas
-/

theorem bumpFrom_length (symbol k : Nat) (l : List Nat) :
    (bumpFrom symbol k l).length = l.length := by
  induction l generalizing k with
  | nil => rfl
  | cons x rest ih => simp [bumpFrom, ih]

theorem bumpFrom_getD (symbol k i : Nat) (l : List Nat) (h : i < l.length) :
    (bumpFrom symbol k l).getD i 0 =
      if symbol + 1 ≤ k + i then l.getD i 0 + 1 else l.getD i 0 := by
  induction l generalizing k i with
  | nil => simp at h
  | cons x rest ih =>
      cases i with
      | zero => simp [bumpFrom]
      | succ n =>
          simp only [bumpFrom, List.getD_cons_succ]
          rw [ih (k + 1) n (by simpa using Nat.lt_of_succ_lt_succ h)]
          have harith : k + 1 + n = k + (n + 1) := by omega
          rw [harith]

theorem range_getD (n i : Nat) (h : i < n) : (List.range n).getD i 0 = i := by
  rw [List.getD_eq_getElem?_getD, List.getElem?_range h]
  rfl

theorem count_eq_getD (m : AdaptiveModel) (h : m.cum_freqs ≠ []) :
    m.count = m.cum_freqs.getD (m.cum_freqs.length - 1) 0 := by
  unfold AdaptiveModel.count
  rw [List.getLast?_eq_getElem?, List.getD_eq_getElem?_getD]

theorem clear_cum (m : AdaptiveModel) :
    m.clear.cum_freqs = List.range m.cum_freqs.length := rfl

theorem clear_length (m : AdaptiveModel) :
    m.clear.cum_freqs.length = m.cum_freqs.length := by
  rw [clear_cum, List.length_range]

theorem count_clear (m : AdaptiveModel) (h : m.cum_freqs ≠ []) :
    m.clear.count = m.cum_freqs.length - 1 := by
  have hlen : 0 < m.cum_freqs.length := List.length_pos.mpr h
  have hne : m.clear.cum_freqs ≠ [] := by
    rw [clear_cum]
    intro hc
    rw [← List.length_eq_zero] at hc
    rw [List.length_range] at hc
    omega
  rw [count_eq_getD _ hne, clear_cum, List.length_range,
    range_getD _ _ (by omega)]

theorem count_new (M f : Nat) : (AdaptiveModel.new M f).count = M + 2 := by
  unfold AdaptiveModel.new
  rw [count_clear _ (by simp), List.length_replicate]
  omega

theorem new_cum (M f : Nat) :
    (AdaptiveModel.new M f).cum_freqs = List.range (M + 3) := by
  unfold AdaptiveModel.new
  rw [clear_cum, List.length_replicate]

theorem update_freq_length (m : AdaptiveModel) (s : Nat) :
    (m.update_freq s).cum_freqs.length = m.cum_freqs.length := by
  unfold AdaptiveModel.update_freq
  split
  · rw [bumpFrom_length, clear_length]
  · rw [bumpFrom_length]

theorem update_freq_max_freq (m : AdaptiveModel) (s : Nat) :
    (m.update_freq s).max_freq = m.max_freq := by
  unfold AdaptiveModel.update_freq
  split <;> rfl

theorem clear_max_freq (m : AdaptiveModel) : m.clear.max_freq = m.max_freq :=
  rfl

theorem count_update (m : AdaptiveModel) (s : Nat)
    (hlen : s + 2 ≤ m.cum_freqs.length) :
    (m.update_freq s).count =
      (if m.max_freq ≤ m.count then m.cum_freqs.length - 1 else m.count) + 1 := by
  have hne : m.cum_freqs ≠ [] := by
    intro hc; rw [← List.length_eq_zero] at hc; omega
  have hcount : ∀ (mm : AdaptiveModel),
      mm.cum_freqs.length = m.cum_freqs.length →
      ({ mm with cum_freqs := bumpFrom s 0 mm.cum_freqs } :
        AdaptiveModel).count = mm.count + 1 := by
    intro mm hl
    have hne2 : mm.cum_freqs ≠ [] := by
      intro hc; rw [← List.length_eq_zero] at hc; omega
    have hbne : bumpFrom s 0 mm.cum_freqs ≠ [] := by
      intro hc
      rw [← List.length_eq_zero, bumpFrom_length] at hc
      omega
    have h1 : ({ mm with cum_freqs := bumpFrom s 0 mm.cum_freqs } :
        AdaptiveModel).count =
        (bumpFrom s 0 mm.cum_freqs).getD
          ((bumpFrom s 0 mm.cum_freqs).length - 1) 0 :=
      count_eq_getD _ hbne
    rw [h1, bumpFrom_length, bumpFrom_getD _ _ _ _ (by omega),
      if_pos (by omega), ← count_eq_getD _ hne2]
  unfold AdaptiveModel.update_freq
  split
  · rw [hcount m.clear (clear_length m), count_clear _ hne]
  · rw [hcount m rfl]

theorem get_probability_denom (m : AdaptiveModel) (s : Nat) :
    (m.get_probability s).1.denom = m.count := rfl

theorem get_probability_lower (m : AdaptiveModel) (s : Nat) :
    (m.get_probability s).1.lower = m.cum_freqs.getD s 0 := rfl

theorem get_probability_upper (m : AdaptiveModel) (s : Nat) :
    (m.get_probability s).1.upper = m.cum_freqs.getD (s + 1) 0 := rfl

/-- Strictly increasing cumulative table, expressed on adjacent entries. -/
def StrictCum (l : List Nat) : Prop :=
  ∀ i, i + 1 < l.length → l.getD i 0 < l.getD (i + 1) 0

theorem strictCum_range (n : Nat) : StrictCum (List.range n) := by
  intro i h
  rw [List.length_range] at h
  rw [range_getD _ _ (by omega), range_getD _ _ (by omega)]
  omega

theorem strictCum_bump (s k : Nat) (l : List Nat) (h : StrictCum l) :
    StrictCum (bumpFrom s k l) := by
  intro i hi
  rw [bumpFrom_length] at hi
  rw [bumpFrom_getD _ _ _ _ (by omega), bumpFrom_getD _ _ _ _ (by omega)]
  have hlt := h i hi
  split <;> split <;> omega

theorem strictCum_mono (l : List Nat) (h : StrictCum l) (i j : Nat)
    (hij : i ≤ j) (hj : j < l.length) : l.getD i 0 ≤ l.getD j 0 := by
  obtain ⟨d, rfl⟩ : ∃ d, j = i + d := ⟨j - i, by omega⟩
  clear hij
  induction d with
  | zero => simp
  | succ n ih =>
      have h1 : l.getD (i + n) 0 < l.getD (i + n + 1) 0 := h (i + n) (by omega)
      have h2 : l.getD i 0 ≤ l.getD (i + n) 0 := ih (by omega)
      have h3 : i + (n + 1) = i + n + 1 := by omega
      rw [h3]
      omega

/-- The states of the adaptive model reachable through the coder: the freshly
constructed model (`new M MAX_FREQ`, as both coders build it), symbol updates
for the symbols the coder can query (data symbols `0..=M` and EOF `M + 1`),
and explicit resets. -/
inductive AdaptiveModel.Reach (M : Nat) : AdaptiveModel → Prop
  | init : AdaptiveModel.Reach M (AdaptiveModel.new M MAX_FREQ)
  | update {m : AdaptiveModel} (s : Nat) (h : AdaptiveModel.Reach M m)
      (hs : s ≤ M + 1) : AdaptiveModel.Reach M (m.update_freq s)
  | clear {m : AdaptiveModel} (h : AdaptiveModel.Reach M m) :
      AdaptiveModel.Reach M m.clear

theorem reach_length {M : Nat} {m : AdaptiveModel}
    (h : AdaptiveModel.Reach M m) :
    m.cum_freqs.length = M + 3 ∧ m.max_freq = MAX_FREQ := by
  induction h with
  | init =>
      refine ⟨?_, rfl⟩
      rw [new_cum, List.length_range]
  | update s h hs ih =>
      exact ⟨by rw [update_freq_length]; exact ih.1,
        by rw [update_freq_max_freq]; exact ih.2⟩
  | clear h ih => exact ⟨by rw [clear_length]; exact ih.1, ih.2⟩

theorem reach_strict {M : Nat} {m : AdaptiveModel}
    (h : AdaptiveModel.Reach M m) : StrictCum m.cum_freqs := by
  induction h with
  | init => rw [new_cum]; exact strictCum_range _
  | update s h hs ih =>
      show StrictCum (AdaptiveModel.update_freq _ s).cum_freqs
      unfold AdaptiveModel.update_freq
      split
      · exact strictCum_bump _ _ _ (by rw [clear_cum]; exact strictCum_range _)
      · exact strictCum_bump _ _ _ ih
  | clear h ih => rw [clear_cum]; exact strictCum_range _

theorem reach_count_le {M : Nat} (hM : M + 3 ≤ MAX_FREQ) {m : AdaptiveModel}
    (h : AdaptiveModel.Reach M m) : m.count ≤ MAX_FREQ := by
  induction h with
  | init => rw [count_new]; omega
  | update s h hs ih =>
      obtain ⟨hlen, hmf⟩ := reach_length h
      rw [count_update _ _ (by omega), hlen, hmf]
      split <;> omega
  | clear h ih =>
      obtain ⟨hlen, hmf⟩ := reach_length h
      rw [count_clear _ (by intro hc; rw [← List.length_eq_zero] at hc; omega),
        hlen]
      omega

/-!
## Theorems: construction, model invariants, stage and pipeline claims
-/

/-- **C5** (counterexample): constructing the arithmetic encoder with
`M = 2^b - 1` (here `b = 4`, `M = 15`) does **not** fail — the source
asserts only `M < 2^b` — and constructing the BWT engine with
`2^W_idx < B` (here `W_idx = 2`, `B = 16`) does not fail either, because
`BwtEncoder::new` checks nothing. -/
theorem construction_guard_cx :
    (AriEncoder.new_adaptive (List Nat) 4 15).isSome = true ∧
    (15 : Nat) = 2 ^ 4 - 1 ∧
    2 ^ 2 < 16 ∧
    (BwtEncoder.new (List Nat) 16 2).block_size = 16 ∧
    (BwtEncoder.new (List Nat) 16 2).original_index_bits = 2 := by
  refine ⟨?_, by decide, by decide, rfl, rfl⟩
  rw [AriEncoder.new_adaptive, if_pos (by decide)]
  rfl

/-- **C5** (amended): the arithmetic encoder/decoder constructors fail
exactly when `M ≥ 2^b` (for the shift-representable widths `b < 31`), i.e.
when the data symbols themselves do not fit in `b` bits; the EOF symbol
`M + 1` is *not* required to fit.  The BWT engine's constructor performs no
parameter check at all: it accepts every `(B, W_idx)` pair unchanged. -/
theorem construction_guard_amended (b M B w : Nat) (hb : b < 31) :
    ((AriEncoder.new_adaptive (List Nat) b M).isSome = true ↔ M < 2 ^ b) ∧
    ((AriDecoder.new_adaptive (List Nat) b M).isSome = true ↔ M < 2 ^ b) ∧
    (BwtEncoder.new (List Nat) B w).block_size = B ∧
    (BwtEncoder.new (List Nat) B w).original_index_bits = w := by
  have hg : ariNewGuard b M ↔ M < 2 ^ b := by
    unfold ariNewGuard
    rw [Nat.mod_eq_of_lt (by omega)]
    have hne : b ≠ 31 := by omega
    simp [hne]
  refine ⟨?_, ?_, rfl, rfl⟩
  · rw [AriEncoder.new_adaptive]
    by_cases h : ariNewGuard b M
    · rw [if_pos h]
      exact iff_of_true rfl (hg.mp h)
    · rw [if_neg h]
      exact iff_of_false (by simp) fun hc => h (hg.mpr hc)
  · rw [AriDecoder.new_adaptive]
    by_cases h : ariNewGuard b M
    · rw [if_pos h]
      exact iff_of_true rfl (hg.mp h)
    · rw [if_neg h]
      exact iff_of_false (by simp) fun hc => h (hg.mpr hc)

/-- Witness for the amended C5 statement at the pipeline's parameters. -/
theorem construction_guard_amended_witness :
    (((AriEncoder.new_adaptive (List Nat) 16 256).isSome = true ↔
        256 < 2 ^ 16) ∧
      ((AriDecoder.new_adaptive (List Nat) 16 256).isSome = true ↔
        256 < 2 ^ 16) ∧
      (BwtEncoder.new (List Nat) (2 ^ 24) 24).block_size = 2 ^ 24 ∧
      (BwtEncoder.new (List Nat) (2 ^ 24) 24).original_index_bits = 24) ∧
    16 < 31 :=
  ⟨construction_guard_amended 16 256 (2 ^ 24) 24 (by decide), by decide⟩

/-- **C6** (counterexample): the coder construction `new_adaptive(16, 65535)`
passes the source's assertion, yet the very first probability triple of its
model has `denom = 65537 > MAX_FREQ = 65536`: the `denom ≤ MAX_FREQ`
invariant fails for this admissible parameterization (the baseline count
`M + 2` already exceeds `MAX_FREQ`). -/
theorem adaptive_model_denom_bound_cx :
    ariNewGuard 16 65535 ∧
    MAX_FREQ = 65536 ∧
    ((AdaptiveModel.new 65535 MAX_FREQ).get_probability 0).1.denom = 65537 ∧
    ¬ ((AdaptiveModel.new 65535 MAX_FREQ).get_probability 0).1.denom ≤
        MAX_FREQ := by
  have hmf : MAX_FREQ = 65536 := by decide
  have h3 : ((AdaptiveModel.new 65535 MAX_FREQ).get_probability 0).1.denom =
      65537 := by
    rw [get_probability_denom, count_new]
  refine ⟨by decide, hmf, h3, ?_⟩
  rw [h3, hmf]
  omega

/-- **C6** (amended): for every `max_symbol M` with `M + 3 ≤ MAX_FREQ`
(which the pipeline's `M = 256` satisfies, and which the spec's own stricter
construction rule `M < 2^b - 1` guarantees for `b ≤ 16`), every probability
triple the model returns satisfies `denom ≤ MAX_FREQ`, where
`MAX_FREQ = ⌊u64_MAX / ONE⌋`; when the total count has reached `MAX_FREQ`
the next update first resets the table to the 1-uniform baseline
(`cum[i] = i`) before incrementing, and the bound is preserved by every
update and reset. -/
theorem adaptive_model_denom_bound (M : Nat) (hM : M + 3 ≤ MAX_FREQ) :
    (∀ m, AdaptiveModel.Reach M m → ∀ s,
      (m.get_probability s).1.denom ≤ MAX_FREQ) ∧
    (∀ m s, AdaptiveModel.Reach M m → MAX_FREQ ≤ m.count →
      m.update_freq s =
        { m.clear with cum_freqs := bumpFrom s 0 m.clear.cum_freqs }) ∧
    (∀ m, AdaptiveModel.Reach M m → m.count ≤ MAX_FREQ) ∧
    (∀ m, AdaptiveModel.Reach M m → ∀ i, i < m.cum_freqs.length →
      m.clear.cum_freqs.getD i 0 = i) := by
  refine ⟨?_, ?_, ?_, ?_⟩
  · intro m hr s
    have hd : (m.get_probability s).1.denom = m.count := rfl
    rw [hd]
    exact reach_count_le hM hr
  · intro m s hr hcnt
    obtain ⟨hlen, hmf⟩ := reach_length hr
    unfold AdaptiveModel.update_freq
    rw [if_pos (by rw [hmf]; exact hcnt)]
  · intro m hr
    exact reach_count_le hM hr
  · intro m hr i hi
    rw [clear_cum, range_getD _ _ hi]

/-- Witness for the amended C6 statement at the pipeline's `M = 256`. -/
theorem adaptive_model_denom_bound_witness :
    (256 + 3 ≤ MAX_FREQ) ∧
    ((AdaptiveModel.new 256 MAX_FREQ).get_probability 0).1.denom ≤ MAX_FREQ :=
  ⟨by decide,
    (adaptive_model_denom_bound 256 (by decide)).1 _ AdaptiveModel.Reach.init 0⟩

/-- **C9**: through construction, every `update_freq` and every `clear`, the
cumulative table stays strictly increasing on adjacent entries, so every
symbol the coder can query (`s ≤ M + 1`, data or EOF) receives a nonempty
probability interval: `lower < upper ≤ denom`. -/
theorem adaptive_model_strict (M : Nat) (m : AdaptiveModel)
    (h : AdaptiveModel.Reach M m) :
    StrictCum m.cum_freqs ∧
    ∀ s, s ≤ M + 1 →
      (m.get_probability s).1.lower < (m.get_probability s).1.upper ∧
      (m.get_probability s).1.upper ≤ (m.get_probability s).1.denom := by
  have hstrict := reach_strict h
  obtain ⟨hlen, _⟩ := reach_length h
  refine ⟨hstrict, fun s hs => ⟨?_, ?_⟩⟩
  · exact hstrict s (by omega)
  · have hd : (m.get_probability s).1.denom = m.count := rfl
    have hu : (m.get_probability s).1.upper = m.cum_freqs.getD (s + 1) 0 := rfl
    rw [hd, hu, count_eq_getD _ (by intro hc; rw [← List.length_eq_zero] at hc; omega)]
    exact strictCum_mono _ hstrict _ _ (by omega) (by omega)

/-- Witness for C9 at the freshly constructed pipeline model. -/
theorem adaptive_model_strict_witness :
    (((AdaptiveModel.new 256 MAX_FREQ).get_probability 0).1.lower <
      ((AdaptiveModel.new 256 MAX_FREQ).get_probability 0).1.upper ∧
     ((AdaptiveModel.new 256 MAX_FREQ).get_probability 0).1.upper ≤
      ((AdaptiveModel.new 256 MAX_FREQ).get_probability 0).1.denom) ∧
    (0 : Nat) ≤ 256 + 1 :=
  ⟨(adaptive_model_strict 256 _ AdaptiveModel.Reach.init).2 0 (by omega),
   by omega⟩

/-- **C10**: a `read` on any of the four encoder stages that has no upstream
source attached (`src = None`) returns `Ok(0)` — the empty byte list — and
leaves the stage state unchanged, regardless of the rest of the state, the
reader, the fuel, and the requested buffer size. -/
theorem encoders_read_without_source {σ : Type} (rd : Rd σ)
    (fuel bufLen : Nat) (mapping : List Nat) (obs1 obs2 obs3 : BitStream PUnit)
    (zc a b w bs bw M bps pend hi lo : Nat) (model : AdaptiveModel)
    (dn : Bool) :
    MtfEncoder.read rd (MtfEncoder.mk none mapping) bufLen =
      some ([], MtfEncoder.mk none mapping) ∧
    BzrleEncoder.read rd fuel (BzrleEncoder.mk none zc obs1 a b w) bufLen =
      some ([], BzrleEncoder.mk none zc obs1 a b w) ∧
    AriEncoder.read rd fuel
      (AriEncoder.mk none model bps M obs2 pend dn hi lo) bufLen =
      some ([], AriEncoder.mk none model bps M obs2 pend dn hi lo) ∧
    BwtEncoder.read rd fuel (BwtEncoder.mk none obs3 bs bw) bufLen =
      some ([], BwtEncoder.mk none obs3 bs bw) :=
  ⟨rfl, rfl, rfl, rfl⟩

/-- **C1** (counterexample): on the empty input the full compression
pipeline (`make_compressor` with `B = 2^24`, `W_idx = 24`, BZRLE `(0, 256,
16)`, ARI `(16, 256)`) produces the two bytes `0xFF 0x40` — the arithmetic
coder's EOF frame — not zero output bytes. -/
theorem pipeline_empty_cx :
    pipelineCompress [] 32 = some [0xFF, 0x40] ∧
    some [0xFF, 0x40] ≠ some ([] : List Nat) := by
  exact ⟨by decide, by decide⟩

/-- **C1** (amended): the pipeline on the empty input produces exactly the
nonempty two-byte ARI EOF frame `0xFF 0x40`; and the decompression pipeline
applied to a zero-byte input does not produce the empty output: its
arithmetic stage primes `value = 0` and then decodes the *data* symbol 0 —
not the EOF symbol `257` — as its first symbol, so the downstream stages are
fed data indefinitely instead of terminating empty. -/
theorem pipeline_empty_amended :
    pipelineCompress [] 32 = some [0xFF, 0x40] ∧
    some [0xFF, 0x40] ≠ some ([] : List Nat) ∧
    ((make_decompressor_head []).map fun d => d.value) = some 0 ∧
    ((make_decompressor_head []).bind fun d =>
      (d.read_bits_for_symbol listRd 64).map Prod.fst) = some (some 0) ∧
    (0 : Nat) ≠ 256 + 1 := by
  exact ⟨by decide, by decide, by decide, by decide, by decide⟩

/-!
## BZRLE helper lemmas
-/

theorem wsub_sub_eq (w x y : Nat) (hx : x < 2 ^ w) (hy : y ≤ x) :
    wsub w x y = x - y := by
  unfold wsub
  have hyy : y < 2 ^ w := lt_of_le_of_lt hy hx
  rw [Nat.mod_eq_of_lt hx, Nat.mod_eq_of_lt hyy,
    show x + 2 ^ w - y = (x - y) + 2 ^ w by omega, Nat.add_mod_right,
    Nat.mod_eq_of_lt (by omega)]

theorem u32_to_bijective_go_spec (a b : Nat) (hab : a ≠ b) :
    ∀ fuel n i, 33 ≤ fuel + i → 2 ^ i ∣ n → n + 2 ^ (i + 1) ≤ 2 ^ 32 →
      ∃ l, u32_to_bijective_go a b fuel n i = some l ∧
        (∀ d ∈ l, d = a ∨ d = b) ∧ bijVal a l i = n ∧ i + l.length ≤ 31 := by
  intro fuel
  induction fuel with
  | zero =>
      intro n i hf hdvd hbound
      exfalso
      have h0 : 0 < 2 ^ (i + 1) := by positivity
      have h1 : 2 ^ (i + 1) ≤ 2 ^ 32 := by omega
      have h2 : i + 1 ≤ 32 := (Nat.pow_le_pow_iff_right (by omega)).mp h1
      omega
  | succ f ih =>
      intro n i hf hdvd hbound
      have h0 : 0 < 2 ^ (i + 1) := by positivity
      have hi31 : i ≤ 31 := by
        have h1 : 2 ^ (i + 1) ≤ 2 ^ 32 := by omega
        have h2 : i + 1 ≤ 32 := (Nat.pow_le_pow_iff_right (by omega)).mp h1
        omega
      by_cases hn : n = 0
      · subst hn
        refine ⟨[], ?_, by simp, rfl, by simpa using hi31⟩
        simp [u32_to_bijective_go]
      · have hpos : 0 < n := Nat.pos_of_ne_zero hn
        have hge : 2 ^ i ≤ n := Nat.le_of_dvd hpos hdvd
        have hn32 : n < 2 ^ 32 := by omega
        have hi30 : i ≤ 30 := by
          by_contra hci
          have h31 : i = 31 := by omega
          subst h31
          have he : (2 : Nat) ^ (31 + 1) = 2 ^ 32 := rfl
          omega
        have hplace : 2 ^ (i % 32) % 2 ^ 32 = 2 ^ i := by
          rw [Nat.mod_eq_of_lt (show i < 32 by omega)]
          exact Nat.mod_eq_of_lt (Nat.pow_lt_pow_right (by omega) (by omega))
        have htwo : 2 ^ i * 2 % 2 ^ 32 = 2 ^ (i + 1) := by
          rw [← Nat.pow_succ]
          exact Nat.mod_eq_of_lt (Nat.pow_lt_pow_right (by omega) (by omega))
        have htwo_ne : ¬ (2 : Nat) ^ (i + 1) = 0 := by positivity
        by_cases hmod : n % 2 ^ (i + 1) = 0
        · have hdd : 2 ^ (i + 1) ∣ n := Nat.dvd_of_mod_eq_zero hmod
          have hge2 : 2 ^ (i + 1) ≤ n := Nat.le_of_dvd hpos hdd
          have hp2 : (2 : Nat) ^ (i + 2) = 2 ^ (i + 1) * 2 := Nat.pow_succ ..
          obtain ⟨l, hl, hmem, hval, hlen⟩ := ih (n - 2 ^ (i + 1)) (i + 1)
            (by omega) (Nat.dvd_sub' hdd dvd_rfl) (by omega)
          have hunf : u32_to_bijective_go a b (f + 1) n i =
              (u32_to_bijective_go a b f (wsub 32 n (2 ^ (i + 1)))
                (i + 1)).map (b :: ·) := by
            simp only [u32_to_bijective_go, hplace, htwo]
            rw [if_neg hn, if_neg htwo_ne, if_pos hmod]
          refine ⟨b :: l, ?_, ?_, ?_, ?_⟩
          · rw [hunf, wsub_sub_eq 32 n _ hn32 hge2, hl]
            rfl
          · intro d hd
            rcases List.mem_cons.mp hd with h | h
            · exact Or.inr h
            · exact hmem d h
          · have hbne : ¬ b = a := fun hc => hab hc.symm
            simp only [bijVal, if_neg hbne]
            omega
          · simp only [List.length_cons]
            omega
        · obtain ⟨k, hk⟩ := hdvd
          have hk0 : k ≠ 0 := by
            intro hc
            rw [hc, Nat.mul_zero] at hk
            exact hn hk
          have hkodd : k % 2 = 1 := by
            rcases Nat.mod_two_eq_zero_or_one k with h2 | h2
            · exfalso
              apply hmod
              rw [hk, Nat.pow_succ, Nat.mul_mod_mul_left, h2, Nat.mul_zero]
            · exact h2
          have hsplit : n - 2 ^ i = 2 ^ (i + 1) * (k / 2) := by
            have h2 : k = 2 * (k / 2) + 1 := by omega
            rw [hk]
            conv_lhs => rw [h2]
            rw [Nat.mul_add, Nat.mul_one, Nat.add_sub_cancel, Nat.pow_succ]
            ring
          have hdvd2 : 2 ^ (i + 1) ∣ n - 2 ^ i := ⟨k / 2, hsplit⟩
          have hbound2 : (n - 2 ^ i) + 2 ^ (i + 2) ≤ 2 ^ 32 := by
            have hK : (2 : Nat) ^ 32 = 2 ^ (i + 1) * 2 ^ (31 - i) := by
              rw [← Nat.pow_add]
              congr 1
              omega
            have hpi : 0 < 2 ^ i := by positivity
            have h1 : 2 ^ (i + 1) * (k / 2) + 2 ^ (i + 1) + 2 ^ i ≤
                2 ^ (i + 1) * 2 ^ (31 - i) := by
              rw [← hsplit, ← hK]
              omega
            have h2 : 2 ^ (i + 1) * (k / 2 + 1) < 2 ^ (i + 1) * 2 ^ (31 - i) := by
              have he : 2 ^ (i + 1) * (k / 2 + 1) =
                  2 ^ (i + 1) * (k / 2) + 2 ^ (i + 1) := by ring
              rw [he]
              omega
            have h3 : k / 2 + 1 < 2 ^ (31 - i) := Nat.lt_of_mul_lt_mul_left h2
            have hp2 : (2 : Nat) ^ (i + 2) = 2 ^ (i + 1) * 2 := Nat.pow_succ ..
            rw [hsplit, hp2, hK, ← Nat.mul_add]
            exact Nat.mul_le_mul_left _ (by omega)
          obtain ⟨l, hl, hmem, hval, hlen⟩ := ih (n - 2 ^ i) (i + 1)
            (by omega) hdvd2 hbound2
          have hunf : u32_to_bijective_go a b (f + 1) n i =
              (u32_to_bijective_go a b f (wsub 32 n (2 ^ i))
                (i + 1)).map (a :: ·) := by
            simp only [u32_to_bijective_go, hplace, htwo]
            rw [if_neg hn, if_neg htwo_ne, if_neg hmod]
          refine ⟨a :: l, ?_, ?_, ?_, ?_⟩
          · rw [hunf, wsub_sub_eq 32 n _ hn32 hge, hl]
            rfl
          · intro d hd
            rcases List.mem_cons.mp hd with h | h
            · exact Or.inl h
            · exact hmem d h
          · have hb : bijVal a (a :: l) i = 2 ^ i + bijVal a l (i + 1) := by
              simp [bijVal]
            rw [hb, hval]
            omega
          · simp only [List.length_cons]
            omega

theorem bijective_to_u32_go_spec (a : Nat) :
    ∀ l i total, i + l.length ≤ 31 → total < 2 ^ 32 →
      bijective_to_u32_go a l i total = (total + bijVal a l i) % 2 ^ 32 := by
  intro l
  induction l with
  | nil =>
      intro i total hlen htot
      simp only [bijective_to_u32_go, bijVal, Nat.add_zero]
      exact (Nat.mod_eq_of_lt htot).symm
  | cons d rest ih =>
      intro i total hlen htot
      have hi30 : i ≤ 30 := by
        simp only [List.length_cons] at hlen
        omega
      have hplace : 2 ^ (i % 32) % 2 ^ 32 = 2 ^ i := by
        rw [Nat.mod_eq_of_lt (show i < 32 by omega)]
        exact Nat.mod_eq_of_lt (Nat.pow_lt_pow_right (by omega) (by omega))
      have htwo : 2 ^ i * 2 % 2 ^ 32 = 2 ^ (i + 1) := by
        rw [← Nat.pow_succ]
        exact Nat.mod_eq_of_lt (Nat.pow_lt_pow_right (by omega) (by omega))
      have hlen2 : i + 1 + rest.length ≤ 31 := by
        simp only [List.length_cons] at hlen
        omega
      by_cases hd : d = a
      · simp only [bijective_to_u32_go, hplace, if_pos hd]
        rw [ih (i + 1) _ hlen2 (Nat.mod_lt _ (by positivity)), Nat.mod_add_mod]
        simp only [bijVal, if_pos hd]
        ring_nf
      · simp only [bijective_to_u32_go, hplace, htwo, if_neg hd]
        rw [ih (i + 1) _ hlen2 (Nat.mod_lt _ (by positivity)), Nat.mod_add_mod]
        simp only [bijVal, if_neg hd]
        ring_nf

/-- Full single-run correctness: for `1 ≤ n ≤ 2^32 - 2` the encoder emits a
nonempty all-sentinel digit list whose decoded value is `n`. -/
theorem u32_bijective_roundtrip (a b : Nat) (hab : a ≠ b) (n : Nat)
    (h1 : 1 ≤ n) (h2 : n ≤ 2 ^ 32 - 2) :
    ∃ l, u32_to_bijective n a b = some l ∧ l ≠ [] ∧
      (∀ d ∈ l, d = a ∨ d = b) ∧ l.length ≤ 31 ∧ bijVal a l 0 = n ∧
      bijective_to_u32 l a b = n := by
  obtain ⟨l, hl, hmem, hval, hlen⟩ := u32_to_bijective_go_spec a b hab 33 n 0
    (by omega) (by simpa using Nat.one_dvd n) (by norm_num; omega)
  refine ⟨l, hl, ?_, hmem, by simpa using hlen, hval, ?_⟩
  · intro hnil
    rw [hnil] at hval
    simp [bijVal] at hval
    omega
  · unfold bijective_to_u32
    rw [bijective_to_u32_go_spec a l 0 0 (by simpa using hlen) (by norm_num),
      hval]
    simp only [Nat.zero_add]
    exact Nat.mod_eq_of_lt (by omega)

theorem takeWhile_all_append (p : Nat → Bool) (ds l : List Nat)
    (hds : ∀ d ∈ ds, p d = true) :
    (ds ++ l).takeWhile p = ds ++ l.takeWhile p ∧
    (ds ++ l).dropWhile p = l.dropWhile p := by
  induction ds with
  | nil => simp
  | cons d rest ih =>
      have hd : p d = true := hds d (List.mem_cons_self d rest)
      have hrest : ∀ x ∈ rest, p x = true := fun x hx =>
        hds x (List.mem_cons_of_mem d hx)
      obtain ⟨h1, h2⟩ := ih hrest
      refine ⟨?_, ?_⟩
      · rw [List.cons_append, List.takeWhile_cons_of_pos hd, h1,
          List.cons_append]
      · rw [List.cons_append, List.dropWhile_cons_of_pos hd, h2]

theorem bzrleDecodeSyms_nil (a b : Nat) : bzrleDecodeSyms a b [] = [] := by
  rw [bzrleDecodeSyms.eq_def]
  simp

/-- One decoder step on a maximal sentinel run followed by a literal. -/
theorem bzrleDecodeSyms_run_cons (a b : Nat) (ds : List Nat) (x : Nat)
    (t : List Nat) (hds : ∀ d ∈ ds, bzrleIsSentinel a b d = true)
    (hx : bzrleIsSentinel a b x = false) :
    bzrleDecodeSyms a b (ds ++ x :: t) =
      (if ds = [] then []
       else List.replicate (bijective_to_u32 ds a b) 0) ++
        x % 256 :: bzrleDecodeSyms a b t := by
  have htw : (ds ++ x :: t).takeWhile (bzrleIsSentinel a b) = ds := by
    rw [(takeWhile_all_append _ ds (x :: t) hds).1,
      List.takeWhile_cons_of_neg (by simp [hx]), List.append_nil]
  have hdw : (ds ++ x :: t).dropWhile (bzrleIsSentinel a b) = x :: t := by
    rw [(takeWhile_all_append _ ds (x :: t) hds).2,
      List.dropWhile_cons_of_neg (by simp [hx])]
  rw [bzrleDecodeSyms.eq_def, if_neg (by simp)]
  simp only []
  split
  next heq =>
    rw [hdw] at heq
    simp at heq
  next x' t' heq =>
    rw [hdw] at heq
    injection heq with h1 h2
    subst h1
    subst h2
    rw [htw]

/-- Decoding a nonempty all-sentinel symbol list yields exactly the decoded
run of zeros. -/
theorem bzrleDecodeSyms_run_only (a b : Nat) (ds : List Nat)
    (hds : ∀ d ∈ ds, bzrleIsSentinel a b d = true) (hne : ds ≠ []) :
    bzrleDecodeSyms a b ds =
      List.replicate (bijective_to_u32 ds a b) 0 := by
  have htw : ds.takeWhile (bzrleIsSentinel a b) = ds :=
    List.takeWhile_eq_self_iff.mpr hds
  have hdw : ds.dropWhile (bzrleIsSentinel a b) = [] :=
    List.dropWhile_eq_nil_iff.mpr hds
  rw [bzrleDecodeSyms.eq_def, if_neg hne]
  simp only []
  split
  next heq =>
    rw [htw, if_neg hne]
  next x' t' heq =>
    rw [hdw] at heq
    simp at heq

theorem sentinel_of_mem (a b d : Nat) (ha16 : a < 2 ^ 16) (hb16 : b < 2 ^ 16)
    (hd : d = a ∨ d = b) : bzrleIsSentinel a b d = true := by
  have hlt : d < 2 ^ 16 := by rcases hd with rfl | rfl <;> assumption
  have hw : wrap 16 d = d := Nat.mod_eq_of_lt hlt
  simp only [bzrleIsSentinel, hw]
  exact decide_eq_true hd

theorem not_sentinel_of_lt (a b x : Nat) (ha : 256 ≤ a) (hb : 256 ≤ b)
    (hx : x < 256) : bzrleIsSentinel a b x = false := by
  have h : wrap 16 x = x := Nat.mod_eq_of_lt (by norm_num; omega)
  simp only [bzrleIsSentinel, h]
  apply decide_eq_false
  rintro (rfl | rfl) <;> omega

theorem leadingZeros_le_length (l : List Nat) : leadingZeros l ≤ l.length := by
  induction l with
  | nil => simp [leadingZeros]
  | cons x t ih =>
      by_cases h : x = 0
      · simp only [leadingZeros, if_pos h, List.length_cons]
        omega
      · simp only [leadingZeros, if_neg h, List.length_cons]
        omega

/-- A zero run only bumps the `u32` counter. -/
theorem bzrleEncodeSyms_replicate (a b k : Nat) :
    ∀ (rest : List Nat) (zc : Nat), zc < 2 ^ 32 →
      bzrleEncodeSyms a b (List.replicate k 0 ++ rest) zc =
        bzrleEncodeSyms a b rest ((zc + k) % 2 ^ 32) := by
  induction k with
  | zero =>
      intro rest zc hzc
      rw [List.replicate_zero, List.nil_append, Nat.add_zero,
        Nat.mod_eq_of_lt hzc]
  | succ n ih =>
      intro rest zc hzc
      rw [List.replicate_succ, List.cons_append]
      have hstep : bzrleEncodeSyms a b (0 :: (List.replicate n 0 ++ rest)) zc =
          bzrleEncodeSyms a b (List.replicate n 0 ++ rest)
            ((zc + 1) % 2 ^ 32) := by
        simp [bzrleEncodeSyms]
      rw [hstep, ih rest ((zc + 1) % 2 ^ 32) (Nat.mod_lt _ (by positivity)),
        Nat.mod_add_mod]
      congr 1
      omega

/-- Round-trip with a pending zero count: under the run-length bound the
encoder succeeds and the decoder reproduces the pending zeros followed by
the input bytes. -/
theorem bzrleRoundtripAux (a b : Nat) (ha : 256 ≤ a) (hb : 256 ≤ b)
    (ha16 : a < 2 ^ 16) (hb16 : b < 2 ^ 16) (hab : a ≠ b) :
    ∀ s : List Nat, (∀ x ∈ s, x < 256) →
      (∀ t, t <:+ s → leadingZeros t ≤ 2 ^ 32 - 2) →
      ∀ zc : Nat, zc + leadingZeros s ≤ 2 ^ 32 - 2 →
        ∃ es, bzrleEncodeSyms a b s zc = some es ∧
          bzrleDecodeSyms a b es = List.replicate zc 0 ++ s := by
  intro s
  induction s with
  | nil =>
      intro hbytes hruns zc hzc
      simp only [leadingZeros] at hzc
      by_cases h0 : zc = 0
      · subst h0
        refine ⟨[], by simp [bzrleEncodeSyms], ?_⟩
        rw [bzrleDecodeSyms_nil]
        simp
      · have h1 : 1 ≤ zc := Nat.one_le_iff_ne_zero.mpr h0
        obtain ⟨l, hl, hlne, hmem, hllen, hbij, hval⟩ :=
          u32_bijective_roundtrip a b hab zc h1 (by omega)
        refine ⟨l, ?_, ?_⟩
        · simp only [bzrleEncodeSyms]
          rw [if_pos (Nat.pos_of_ne_zero h0), hl]
        · rw [bzrleDecodeSyms_run_only a b l
            (fun d hd => sentinel_of_mem a b d ha16 hb16 (hmem d hd)) hlne,
            hval, List.append_nil]
  | cons x rest ih =>
      intro hbytes hruns zc hzc
      have hrest_bytes : ∀ y ∈ rest, y < 256 := fun y hy =>
        hbytes y (List.mem_cons_of_mem x hy)
      have hrest_runs : ∀ t, t <:+ rest → leadingZeros t ≤ 2 ^ 32 - 2 :=
        fun t ht => hruns t (ht.trans (List.suffix_cons x rest))
      by_cases hx0 : x = 0
      · subst hx0
        have hlz : leadingZeros (0 :: rest) = leadingZeros rest + 1 := by
          simp [leadingZeros]
        have hzc1 : (zc + 1) + leadingZeros rest ≤ 2 ^ 32 - 2 := by omega
        have hmod : (zc + 1) % 2 ^ 32 = zc + 1 := Nat.mod_eq_of_lt (by omega)
        obtain ⟨es, he, hd⟩ := ih hrest_bytes hrest_runs (zc + 1) hzc1
        refine ⟨es, ?_, ?_⟩
        · have hstep : bzrleEncodeSyms a b (0 :: rest) zc =
              bzrleEncodeSyms a b rest ((zc + 1) % 2 ^ 32) := by
            simp [bzrleEncodeSyms]
          rw [hstep, hmod, he]
        · rw [hd, List.replicate_succ']
          simp [List.append_assoc]
      · have hx256 : x < 256 := hbytes x (List.mem_cons_self x rest)
        have hxs : bzrleIsSentinel a b x = false :=
          not_sentinel_of_lt a b x ha hb hx256
        have hxmod : x % 256 = x := Nat.mod_eq_of_lt hx256
        obtain ⟨es', he', hd'⟩ := ih hrest_bytes hrest_runs 0 (by
          have := hrest_runs rest (List.suffix_refl rest)
          omega)
        have hd'' : bzrleDecodeSyms a b es' = rest := by
          rw [hd']
          simp
        have hzc2 : zc ≤ 2 ^ 32 - 2 := by
          have hlz : leadingZeros (x :: rest) = 0 := by
            simp [leadingZeros, hx0]
          omega
        by_cases h0 : zc = 0
        · subst h0
          refine ⟨x :: es', ?_, ?_⟩
          · simp only [bzrleEncodeSyms]
            rw [if_neg hx0, if_neg (Nat.lt_irrefl 0), Option.some_bind, he']
            simp
          · have hrun := bzrleDecodeSyms_run_cons a b [] x es' (by simp) hxs
            rw [List.nil_append] at hrun
            rw [hrun, if_pos rfl, List.nil_append, hxmod, hd'']
            simp
        · have h1 : 1 ≤ zc := Nat.one_le_iff_ne_zero.mpr h0
          obtain ⟨l, hl, hlne, hmem, hllen, hbij, hval⟩ :=
            u32_bijective_roundtrip a b hab zc h1 hzc2
          refine ⟨l ++ x :: es', ?_, ?_⟩
          · simp only [bzrleEncodeSyms]
            rw [if_neg hx0, if_pos (Nat.pos_of_ne_zero h0), hl,
              Option.some_bind, he']
            simp
          · rw [bzrleDecodeSyms_run_cons a b l x es'
              (fun d hd => sentinel_of_mem a b d ha16 hb16 (hmem d hd)) hxs,
              if_neg hlne, hval, hxmod, hd'']

/-- **C4** (amended): with distinct sentinels `256 ≤ a, b < 2^16` and every
maximal run of zero bytes in `s` of length at most `2^32 - 2` (each maximal
run is the zero prefix of some suffix of `s`), BZRLE decoding of the BZRLE
encoding of `s` returns exactly `s`; moreover every run length
`1 ≤ n ≤ 2^32 - 2` is emitted as the bijective base-2 digit string of `n`
over `{a, b}` — least-significant first, digit `a` contributing `2^i` and
digit `b` contributing `2·2^i` at position `i` — and the decoder's inverse
sum recovers `n`.  The unamended claim (every finite byte stream) fails:
at run length `2^32 - 1` the encoder's `u32` divisor `place * 2` wraps to
zero and `n % (place * 2)` panics. -/
theorem bzrle_roundtrip (a b : Nat) (ha : 256 ≤ a) (hb : 256 ≤ b)
    (ha16 : a < 2 ^ 16) (hb16 : b < 2 ^ 16) (hab : a ≠ b)
    (s : List Nat) (hbytes : ∀ x ∈ s, x < 256)
    (hruns : ∀ t, t <:+ s → leadingZeros t ≤ 2 ^ 32 - 2) :
    (∃ es, bzrleEncodeSyms a b s 0 = some es ∧
      bzrleDecodeSyms a b es = s) ∧
    (∀ n : Nat, 1 ≤ n → n ≤ 2 ^ 32 - 2 →
      ∃ l, u32_to_bijective n a b = some l ∧ bijVal a l 0 = n ∧
        bijective_to_u32 l a b = n) := by
  constructor
  · obtain ⟨es, he, hd⟩ := bzrleRoundtripAux a b ha hb ha16 hb16 hab s hbytes
      hruns 0 (by simpa using hruns s (List.suffix_refl s))
    exact ⟨es, he, by simpa using hd⟩
  · intro n h1 h2
    obtain ⟨l, hl, _, _, _, hbij, hval⟩ := u32_bijective_roundtrip a b hab n h1 h2
    exact ⟨l, hl, hbij, hval⟩

/-- **C4** counterexample: on a stream that is a single run of `2^32 - 1`
zero bytes (sentinels 256/257), the encoder does not produce output at all —
`u32_to_bijective` reaches digit position 31 where `place * 2` wraps to `0`
and the `u32` remainder operation panics (`none`). -/
theorem bzrle_roundtrip_cx :
    bzrleEncodeSyms 256 257 (List.replicate (2 ^ 32 - 1) 0) 0 = none := by
  have h := bzrleEncodeSyms_replicate 256 257 (2 ^ 32 - 1) [] 0 (by norm_num)
  rw [List.append_nil] at h
  rw [h]
  have h2 : (0 + (2 ^ 32 - 1)) % 2 ^ 32 = 2 ^ 32 - 1 :=
    Nat.mod_eq_of_lt (by norm_num)
  rw [h2]
  simp only [bzrleEncodeSyms]
  rw [if_pos (by norm_num)]
  rfl

/-- **C4** witness: the round-trip theorem applied to the concrete stream
`[0, 0, 0, 5]` with sentinels 256 and 257. -/
theorem bzrle_roundtrip_witness :
    (∃ es, bzrleEncodeSyms 256 257 [0, 0, 0, 5] 0 = some es ∧
      bzrleDecodeSyms 256 257 es = [0, 0, 0, 5]) ∧
    (∀ n : Nat, 1 ≤ n → n ≤ 2 ^ 32 - 2 →
      ∃ l, u32_to_bijective n 256 257 = some l ∧ bijVal 256 l 0 = n ∧
        bijective_to_u32 l 256 257 = n) :=
  bzrle_roundtrip 256 257 (by norm_num) (by norm_num) (by norm_num)
    (by norm_num) (by norm_num) [0, 0, 0, 5] (by decide)
    (fun t ht => (leadingZeros_le_length t).trans
      (ht.length_le.trans (by norm_num)))
